import Mathlib

/-!
Verification of the apollo v2 transaction builder (Go) against its
natural-language specification.  The Go sources are shallowly embedded:
machine integers (`uint64` / `int64`) are `Nat` / `Int` with explicit
`% 2^64` wrapping where the Go code can wrap, Go maps keyed by
(policy id, asset name) are association lists whose per-key quantity is
the sum of matching entries (a Go map has at most one entry per key, so
on Go-representable data this is the map value), and fallible Go
functions return `Except String`.
-/

deriving instance DecidableEq for Except

/-- 2^64, the modulus of Go `uint64` arithmetic. -/
def U64 : Nat := 18446744073709551616

/-- 2^63, the magnitude bound of Go `int64`. -/
def I63 : Nat := 9223372036854775808

/-- Reduce an unbounded integer to Go `int64` two's-complement wrapping. -/
def toInt64 (x : Int) : Int := (x + (I63 : Int)) % (U64 : Int) - (I63 : Int)

/-- Go cast `uint64 -> int64` (two's complement reinterpretation). -/
def toInt64u (x : Nat) : Int := if x < I63 then (x : Int) else (x : Int) - (U64 : Int)

/-- Go cast `int64 -> uint64` (two's complement reinterpretation). -/
def toUInt64i (x : Int) : Nat := ((x % (U64 : Int)).toNat) % U64

/-- An asset key: (policy id, asset name).  Policy ids are abstract
identifiers; asset names are byte strings (needed for CBOR sizes). -/
abbrev AKey : Type := Nat × List Nat

/-- The multi-asset bucket of a `Value`
(Go: `common.MultiAsset[common.MultiAssetTypeOutput]`, a nested map
policy id -> asset name -> `*big.Int`), flattened to one entry per
(policy, name) key.  Quantities are unbounded integers, as `big.Int`. -/
abbrev MultiAsset : Type := List (AKey × Int)

/-- The quantity a `MultiAsset` holds at a key: the sum of matching
entries.  A Go map has at most one entry per key, so this is the map
value (`Asset(p, n)`), with absence read as 0. -/
def maQty (m : MultiAsset) (k : AKey) : Int :=
  m.foldr (fun e acc => (if e.1 = k then e.2 else 0) + acc) 0

/-- Whether any entry of the multi-asset has key `k`
(Go: `Asset(p, n) != nil`). -/
def maHasKey (m : MultiAsset) (k : AKey) : Bool :=
  m.any (fun e => e.1 = k)

/-- Add quantity `q` at key `k`, merging with the entry already present
for `k`, if any (the merge step of gouroboros `MultiAsset.Add`). -/
def maAddEntry (m : MultiAsset) (k : AKey) (q : Int) : MultiAsset :=
  match m with
  | [] => [(k, q)]
  | e :: t => if e.1 = k then (k, e.2 + q) :: t else e :: maAddEntry t k q

/-- Merge `other` into `m`, adding quantities per key
(gouroboros `MultiAsset.Add`, used by `Value.Add` and `SubMultiAsset`). -/
def maAdd (m other : MultiAsset) : MultiAsset :=
  other.foldl (fun acc e => maAddEntry acc e.1 e.2) m

/-- Negate every quantity (the "negative MultiAsset" built inside the Go
`SubMultiAsset`). -/
def maNeg (m : MultiAsset) : MultiAsset :=
  m.map (fun e => (e.1, -e.2))

/-- Go `MultiAssetIsEmpty` on a non-nil map: true iff no entry has a
positive quantity. -/
def maIsEmpty (m : MultiAsset) : Bool :=
  m.all (fun e => e.2 ≤ 0)

/-- Go `SubMultiAsset(m, other)`: error if `other` demands more of any of
its keys than `m` holds, else merge the negation of `other` into `m`. -/
def SubMultiAsset (m other : MultiAsset) : Except String MultiAsset :=
  if other.any (fun e => maQty m e.1 < maQty other e.1) then
    .error "asset underflow for policy"
  else
    .ok (maAdd m (maNeg other))

/-- One entry of the loop body of Go `subtractAssetsSaturating`:
subtract entry `e` from the remaining requirement, clamping the step at
zero and skipping a key whose requirement is not positive. -/
def satStep (rem : MultiAsset) (e : AKey × Int) : MultiAsset :=
  let reqQty := maQty rem e.1
  if reqQty ≤ 0 then rem
  else
    let toSub := if reqQty ≤ e.2 then reqQty else e.2
    maAddEntry rem e.1 (-toSub)

/-- Go `subtractAssetsSaturating(remaining, utxoAssets)`: fold `satStep`
over the UTxO's asset entries. -/
def subtractAssetsSaturating (remaining utxoAssets : MultiAsset) : MultiAsset :=
  utxoAssets.foldl satStep remaining

/-- A ledger `Value` (Go `apollo.Value`): a `uint64` lovelace coin plus an
optional multi-asset bucket.  `coin` is a `Nat`; the Go `uint64` range is
an invariant (`coin < U64`) carried as a hypothesis where it matters. -/
structure Value where
  coin : Nat
  assets : Option MultiAsset
deriving DecidableEq

/-- Go `NewSimpleValue`: lovelace only. -/
def NewSimpleValue (coin : Nat) : Value := { coin := coin, assets := none }

/-- The quantity a `Value` holds at an asset key (0 when no bucket). -/
def Value.qty (v : Value) (k : AKey) : Int :=
  match v.assets with
  | none => 0
  | some m => maQty m k

/-- Go `Value.HasAssets`: a non-nil bucket with some positive entry. -/
def Value.hasAssets (v : Value) : Bool :=
  match v.assets with
  | none => false
  | some m => ! maIsEmpty m

/-- Go `Value.Add`: coin summed with an explicit wrap check
(`sum < v.Coin` detects `uint64` overflow); asset buckets cloned and
merged. -/
def Value.add (v other : Value) : Except String Value :=
  let sum := (v.coin + other.coin) % U64
  if sum < v.coin then .error "coin overflow"
  else
    let assets : Option MultiAsset :=
      match v.assets, other.assets with
      | some a, some b => some (maAdd a b)
      | some a, none => some a
      | none, some b => some b
      | none, none => none
    .ok { coin := sum, assets := assets }

/-- Go `Value.Sub`: coin underflow check, then per-asset subtraction via
`SubMultiAsset`; a missing bucket may only absorb an empty subtrahend. -/
def Value.sub (v other : Value) : Except String Value :=
  if v.coin < other.coin then .error "coin underflow"
  else
    match v.assets with
    | some a =>
      match other.assets with
      | some b =>
        match SubMultiAsset a b with
        | .error e => .error e
        | .ok m => .ok { coin := v.coin - other.coin, assets := some m }
      | none => .ok { coin := v.coin - other.coin, assets := some a }
    | none =>
      match other.assets with
      | some b =>
        if ¬ maIsEmpty b then .error "asset underflow: no assets to subtract from"
        else .ok { coin := v.coin - other.coin, assets := none }
      | none => .ok { coin := v.coin - other.coin, assets := none }

/-- Go `Value.GreaterOrEqual`: at least as much coin, and every
positive-quantity asset of `other` matched or exceeded. -/
def Value.greaterOrEqual (v other : Value) : Bool :=
  if v.coin < other.coin then false
  else
    match other.assets with
    | none => true
    | some ob =>
      match v.assets with
      | none => maIsEmpty ob
      | some va =>
        ob.all (fun e => maQty ob e.1 ≤ 0 ∨ maQty ob e.1 ≤ maQty va e.1)

-- ## Pointwise lemmas for the multi-asset operations

theorem maQty_nil (k : AKey) : maQty [] k = 0 := rfl

theorem maQty_cons (e : AKey × Int) (t : MultiAsset) (k : AKey) :
    maQty (e :: t) k = (if e.1 = k then e.2 else 0) + maQty t k := rfl

theorem maQty_addEntry (m : MultiAsset) (k : AKey) (q : Int) (j : AKey) :
    maQty (maAddEntry m k q) j = maQty m j + (if k = j then q else 0) := by
  induction m with
  | nil =>
    show maQty [(k, q)] j = maQty [] j + _
    rw [maQty_cons, maQty_nil]
    by_cases h : k = j <;> simp [h]
  | cons e t ih =>
    show maQty (if e.1 = k then (k, e.2 + q) :: t else e :: maAddEntry t k q) j = _
    by_cases h : e.1 = k
    · rw [if_pos h, maQty_cons, maQty_cons, h]
      by_cases hj : k = j <;> simp only [hj, if_pos, if_neg, ite_true, ite_false] <;> ring
    · rw [if_neg h, maQty_cons, maQty_cons, ih]
      ring

theorem maQty_add (m other : MultiAsset) (j : AKey) :
    maQty (maAdd m other) j = maQty m j + maQty other j := by
  induction other generalizing m with
  | nil => simp [maAdd, maQty_nil]
  | cons e t ih =>
    show maQty (maAdd (maAddEntry m e.1 e.2) t) j = _
    rw [ih, maQty_addEntry, maQty_cons]
    by_cases h : e.1 = j
    · subst h; simp; ring
    · simp [h]

theorem maQty_neg (m : MultiAsset) (j : AKey) :
    maQty (maNeg m) j = -maQty m j := by
  induction m with
  | nil => simp [maNeg, maQty_nil]
  | cons e t ih =>
    simp only [maNeg, List.map_cons, maQty_cons] at *
    by_cases h : e.1 = j <;> simp [h, ih] <;> ring

theorem maIsEmpty_qty {m : MultiAsset} (h : maIsEmpty m = true) (k : AKey) :
    maQty m k ≤ 0 := by
  induction m with
  | nil => simp [maQty_nil]
  | cons e t ih =>
    simp only [maIsEmpty, List.all_cons, Bool.and_eq_true, decide_eq_true_eq] at h
    have ht : maQty t k ≤ 0 := ih (by simp [maIsEmpty, h.2])
    rw [maQty_cons]
    by_cases he : e.1 = k
    · simp only [he, if_pos rfl]
      omega
    · simp only [he, if_neg he]
      omega

-- ## C4: Add/Sub round trip

/-- The C4 counterexample values: `a` holds quantity -1 of an asset,
`b` holds +1 of the same asset. -/
def c4a : Value := { coin := 0, assets := some [((0, []), -1)] }

/-- See `c4a`. -/
def c4b : Value := { coin := 0, assets := some [((0, []), 1)] }

/-- C4 counterexample: for `a = c4a` and `b = c4b`, `Add(a, b)` succeeds
(no overflow: both coins are 0), yet `Sub(Add(a, b), b)` fails with an
asset-underflow error instead of returning `a`: the merged bucket holds
quantity 0 of the asset while `b` demands 1 back.  This refutes the
claim that `Sub(Add(a, b), b)` succeeds for every non-overflowing pair. -/
theorem c4_sub_add_counterexample :
    Value.add c4a c4b = .ok { coin := 0, assets := some [((0, []), 0)] } ∧
    Value.sub { coin := 0, assets := some [((0, []), 0)] } c4b =
      .error "asset underflow for policy" := by
  constructor <;> rfl

/-- C4 (amended): for `uint64`-ranged coins, if `Add(a, b)` does not
overflow and every asset quantity of `a` is nonnegative, then
`Sub(Add(a, b), b)` succeeds and agrees with `a` on the coin and on
every asset quantity. -/
theorem c4_sub_add_roundtrip (a b : Value)
    (ha64 : a.coin < U64) (hb64 : b.coin < U64)
    (hnn : ∀ k : AKey, 0 ≤ a.qty k)
    (c : Value) (hadd : Value.add a b = .ok c) :
    ∃ d : Value, Value.sub c b = .ok d ∧
      d.coin = a.coin ∧ ∀ k : AKey, d.qty k = a.qty k := by
  unfold Value.add at hadd
  by_cases hov : (a.coin + b.coin) % U64 < a.coin
  · rw [if_pos hov] at hadd
    exact (Except.noConfusion hadd)
  · rw [if_neg hov] at hadd
    have hU : U64 = 18446744073709551616 := rfl
    have hsum : (a.coin + b.coin) % U64 = a.coin + b.coin := by
      rw [hU] at hov ⊢
      rw [hU] at ha64 hb64
      omega
    rw [hsum] at hadd
    have hc : ¬ (a.coin + b.coin < b.coin) := by omega
    have hco : a.coin + b.coin - b.coin = a.coin := by omega
    -- case split on the asset buckets
    rcases ha : a.assets with _ | ma <;> rcases hb : b.assets with _ | mb <;>
      simp only [ha, hb] at hadd <;> injection hadd with hadd <;> subst hadd
    · -- none, none
      refine ⟨{ coin := a.coin, assets := none }, ?_, rfl, ?_⟩
      · simp only [Value.sub, hb, if_neg hc, hco]
      · intro k
        simp [Value.qty, ha]
    · -- a none, b some: merged bucket is b's; subtracting b zeroes it
      refine ⟨{ coin := a.coin, assets := some (maAdd mb (maNeg mb)) }, ?_, rfl, ?_⟩
      · simp only [Value.sub, hb, if_neg hc]
        have hchk : mb.any (fun e => maQty mb e.1 < maQty mb e.1) = false := by
          simp
        simp [SubMultiAsset, hchk, hco]
      · intro k
        simp only [Value.qty, maQty_add, maQty_neg, ha]
        ring
    · -- a some, b none
      refine ⟨{ coin := a.coin, assets := some ma }, ?_, rfl, ?_⟩
      · simp only [Value.sub, hb, if_neg hc, hco]
      · intro k
        simp [Value.qty, ha]
    · -- both some
      refine ⟨{ coin := a.coin, assets := some (maAdd (maAdd ma mb) (maNeg mb)) }, ?_, rfl, ?_⟩
      · simp only [Value.sub, hb, if_neg hc]
        have hchk : mb.any (fun e => maQty (maAdd ma mb) e.1 < maQty mb e.1) = false := by
          rw [List.any_eq_false]
          intro e he
          simp only [decide_eq_true_eq, not_lt, maQty_add]
          have := hnn e.1
          simp only [Value.qty, ha] at this
          omega
        simp [SubMultiAsset, hchk, hco]
      · intro k
        simp only [Value.qty, ha, maQty_add, maQty_neg]
        ring

/-- Witness for `c4_sub_add_roundtrip` at a concrete input:
`a = 5 coin + 2 of an asset`, `b = 7 coin + 3 of the same asset`. -/
theorem c4_sub_add_roundtrip_witness :
    ∃ d : Value,
      Value.sub { coin := 12, assets := some [((0, []), 5)] }
        { coin := 7, assets := some [((0, []), 3)] } = .ok d ∧
      d.coin = 5 ∧ ∀ k : AKey, d.qty k = Value.qty { coin := 5, assets := some [((0, []), 2)] } k := by
  have h := c4_sub_add_roundtrip
    { coin := 5, assets := some [((0, []), 2)] }
    { coin := 7, assets := some [((0, []), 3)] }
    (by norm_num [U64]) (by norm_num [U64])
    (by
      intro k
      simp only [Value.qty, maQty_cons, maQty_nil]
      by_cases hk : ((0 : Nat), ([] : List Nat)) = k <;> simp [hk])
    { coin := 12, assets := some [((0, []), 5)] }
    (by rfl)
  exact h

-- ## Coin selection (apollo.go selectCoins / SortUtxos / isUsed)

/-- A UTxO as the coin selector observes it: a reference
(transaction id, output index), an optional lovelace amount
(Go `Output.Amount() *big.Int`, possibly nil) and an optional asset
bucket (Go `Output.Assets()`).  Transaction ids are abstract
identifiers; `utxoRef`'s hex-string rendering in Go is injective, so the
reference is modelled as the pair itself. -/
structure Utxo where
  txId : Nat
  idx : Nat
  amount : Option Nat
  assets : Option MultiAsset
deriving DecidableEq

/-- Go `utxoRef`: the stable identity of a UTxO. -/
def utxoRef (u : Utxo) : Nat × Nat := (u.txId, u.idx)

/-- The slice of builder state that coin selection touches
(`a.utxos`, `a.preselectedUtxos`, `a.usedUtxos`). -/
structure Builder where
  utxos : List Utxo
  preselectedUtxos : List Utxo
  usedUtxos : List (Nat × Nat)
deriving DecidableEq

/-- Go `isUsed`: a reference is used if it is in the used list or
belongs to a preselected UTxO. -/
def isUsed (b : Builder) (ref : Nat × Nat) : Bool :=
  b.usedUtxos.any (fun r => r = ref) || b.preselectedUtxos.any (fun u => utxoRef u = ref)

/-- The strict comparator passed to `sort.Slice` inside Go `SortUtxos`:
amount-descending within each class, ADA-only UTxOs before asset-bearing
ones. -/
def utxoLess (i j : Utxo) : Bool :=
  if !i.assets.isSome && !j.assets.isSome then
    match i.amount, j.amount with
    | some ia, some ja => decide (ja < ia)
    | _, _ => false
  else if i.assets.isSome && j.assets.isSome then
    match i.amount, j.amount with
    | some ia, some ja => decide (ja < ia)
    | _, _ => false
  else j.assets.isSome

/-- Insert `u` into `l` before the first element it compares less than
(one deterministic refinement of the unstable Go `sort.Slice`). -/
def insertByLess (u : Utxo) : List Utxo → List Utxo
  | [] => [u]
  | v :: t => if utxoLess u v then u :: v :: t else v :: insertByLess u t

/-- Go `SortUtxos`: a copy of the pool ordered by `utxoLess`. -/
def SortUtxos (utxos : List Utxo) : List Utxo :=
  utxos.foldr insertByLess []

theorem insertByLess_perm (u : Utxo) (l : List Utxo) :
    List.Perm (insertByLess u l) (u :: l) := by
  induction l with
  | nil => exact List.Perm.refl _
  | cons v t ih =>
    show List.Perm (if utxoLess u v then u :: v :: t else v :: insertByLess u t) _
    by_cases h : utxoLess u v
    · rw [if_pos h]
    · rw [if_neg h]
      exact ((ih.cons v).trans (List.Perm.swap u v t))

theorem sortUtxos_perm (l : List Utxo) : List.Perm (SortUtxos l) l := by
  induction l with
  | nil => exact List.Perm.refl _
  | cons u t ih =>
    show List.Perm (insertByLess u (SortUtxos t)) _
    exact (insertByLess_perm u (SortUtxos t)).trans (ih.cons u)

/-- One step of the selection loop: deduct a selected UTxO from the
remaining requirement (saturating on the coin, per-asset saturating
subtraction on the bucket), as in the loop body of Go `selectCoins`. -/
def consumeUtxo (remaining : Value) (u : Utxo) : Value :=
  let coin :=
    match u.amount with
    | some amt => remaining.coin - amt
    | none => remaining.coin
  let assets :=
    match remaining.assets, u.assets with
    | some rm, some ua => some (subtractAssetsSaturating rm ua)
    | rm, _ => rm
  { coin := coin, assets := assets }

/-- The iteration of Go `selectCoins` over the sorted pool: skip used
UTxOs, otherwise select and deduct; commit the selected references to
`usedUtxos` only on success. -/
def selectLoop (b : Builder) (pool : List Utxo) (remaining : Value)
    (selected : List Utxo) (refs : List (Nat × Nat)) :
    Except String (List Utxo) × Builder :=
  match pool with
  | [] =>
    if remaining.coin > 0 || remaining.hasAssets then
      (.error "insufficient UTxOs to cover required value", b)
    else
      (.ok selected, { b with usedUtxos := b.usedUtxos ++ refs })
  | u :: rest =>
    if isUsed b (utxoRef u) then selectLoop b rest remaining selected refs
    else
      let selected' := selected ++ [u]
      let refs' := refs ++ [utxoRef u]
      let remaining' := consumeUtxo remaining u
      if remaining'.coin = 0 && !remaining'.hasAssets then
        (.ok selected', { b with usedUtxos := b.usedUtxos ++ refs' })
      else
        selectLoop b rest remaining' selected' refs'

/-- The remaining requirement computed at the top of Go `selectCoins`:
saturating coin difference and saturating per-asset difference of the
required value against the already-committed input value. -/
def initRemaining (required currentInput : Value) : Value :=
  { coin := required.coin - currentInput.coin,
    assets :=
      match required.assets with
      | none => none
      | some ra =>
        some (match currentInput.assets with
              | none => ra
              | some ca => subtractAssetsSaturating ra ca) }

/-- Go `selectCoins`: immediately satisfied when the committed input
already covers the requirement; otherwise run the greedy loop over the
sorted pool. -/
def selectCoins (b : Builder) (required currentInput : Value) :
    Except String (List Utxo) × Builder :=
  if currentInput.greaterOrEqual required then (.ok [], b)
  else selectLoop b (SortUtxos b.utxos) (initRemaining required currentInput) [] []

-- ## C10: failed selection leaves the used list untouched

theorem selectLoop_error_frame (b : Builder) :
    ∀ (pool : List Utxo) (remaining : Value) (selected : List Utxo)
      (refs : List (Nat × Nat)) (e : String) (b2 : Builder),
      selectLoop b pool remaining selected refs = (.error e, b2) →
      b2 = b ∧ e = "insufficient UTxOs to cover required value" := by
  intro pool
  induction pool with
  | nil =>
    intro remaining selected refs e b2 h
    simp only [selectLoop] at h
    by_cases hcond : (remaining.coin > 0 || remaining.hasAssets) = true
    · rw [if_pos hcond, Prod.mk.injEq] at h
      obtain ⟨h1, h2⟩ := h
      refine ⟨h2.symm, ?_⟩
      injection h1 with h3
      exact h3.symm
    · rw [if_neg hcond, Prod.mk.injEq] at h
      exact absurd h.1 (by simp)
  | cons u rest ih =>
    intro remaining selected refs e b2 h
    simp only [selectLoop] at h
    by_cases hused : isUsed b (utxoRef u) = true
    · rw [if_pos hused] at h
      exact ih remaining selected refs e b2 h
    · rw [if_neg hused] at h
      by_cases hdone : ((consumeUtxo remaining u).coin = 0 &&
          !(consumeUtxo remaining u).hasAssets) = true
      · rw [if_pos hdone, Prod.mk.injEq] at h
        exact absurd h.1 (by simp)
      · rw [if_neg hdone] at h
        exact ih _ _ _ e b2 h

/-- C10: when coin selection fails (the pool cannot cover the
requirement), the builder -- in particular its used-UTxO reference
list -- is returned exactly as it was: references are committed to
`usedUtxos` only on the successful return paths. -/
theorem c10_select_failure_frame (b : Builder) (required currentInput : Value)
    (e : String) (b2 : Builder)
    (h : selectCoins b required currentInput = (.error e, b2)) :
    b2 = b := by
  unfold selectCoins at h
  by_cases hge : currentInput.greaterOrEqual required = true
  · rw [if_pos hge] at h
    exact absurd (Prod.mk.injEq _ _ _ _ ▸ h).1 (by simp)
  · rw [if_neg hge] at h
    exact (selectLoop_error_frame b _ _ _ _ e b2 h).1

/-- Witness for `c10_select_failure_frame`: a pool-less builder with a
nonempty used list fails a 5-lovelace selection and is returned intact. -/
theorem c10_select_failure_frame_witness :
    ({ utxos := [], preselectedUtxos := [], usedUtxos := [(7, 0)] } : Builder) =
      { utxos := [], preselectedUtxos := [], usedUtxos := [(7, 0)] } :=
  c10_select_failure_frame
    { utxos := [], preselectedUtxos := [], usedUtxos := [(7, 0)] }
    (NewSimpleValue 5) (NewSimpleValue 0)
    "insufficient UTxOs to cover required value"
    { utxos := [], preselectedUtxos := [], usedUtxos := [(7, 0)] }
    (by rfl)

-- ## Accounting lemmas for the saturating subtraction

theorem maQty_nonneg (m : MultiAsset) (h : ∀ e ∈ m, 0 ≤ e.2) (k : AKey) :
    0 ≤ maQty m k := by
  induction m with
  | nil => simp [maQty_nil]
  | cons e t ih =>
    rw [maQty_cons]
    have he := h e (List.mem_cons_self _ _)
    have ht := ih (fun e2 he2 => h e2 (List.mem_cons_of_mem _ he2))
    by_cases hek : e.1 = k <;> simp only [hek, ite_true, ite_false] <;> omega

theorem maQty_no_key (m : MultiAsset) (k : AKey) (h : ∀ e ∈ m, e.1 ≠ k) :
    maQty m k = 0 := by
  induction m with
  | nil => rfl
  | cons e t ih =>
    rw [maQty_cons]
    have he := h e (List.mem_cons_self _ _)
    have ht := ih (fun e2 he2 => h e2 (List.mem_cons_of_mem _ he2))
    simp only [he, ite_false, ht, add_zero]

theorem maQty_entry_of_ne_zero (m : MultiAsset) (k : AKey) (h : maQty m k ≠ 0) :
    ∃ e, e ∈ m ∧ e.1 = k := by
  by_contra hno
  push_neg at hno
  exact h (maQty_no_key m k hno)

theorem maQty_eq_entry (m : MultiAsset) (hnd : (m.map Prod.fst).Nodup) :
    ∀ e ∈ m, maQty m e.1 = e.2 := by
  induction m with
  | nil => intro e he; cases he
  | cons f t ih =>
    intro e he
    rw [List.map_cons, List.nodup_cons] at hnd
    rcases List.mem_cons.mp he with rfl | het
    · rw [maQty_cons, if_pos rfl]
      have : ∀ e2 ∈ t, e2.1 ≠ e.1 := by
        intro e2 he2 hc
        exact hnd.1 (hc ▸ List.mem_map_of_mem Prod.fst he2)
      rw [maQty_no_key t e.1 this, add_zero]
    · rw [maQty_cons]
      have hne : f.1 ≠ e.1 := by
        intro hc
        exact hnd.1 (hc ▸ List.mem_map_of_mem Prod.fst het)
      rw [if_neg hne, ih hnd.2 e het, zero_add]

theorem maIsEmpty_of_qty_nonpos (m : MultiAsset) (hnd : (m.map Prod.fst).Nodup)
    (h : ∀ k, maQty m k ≤ 0) : maIsEmpty m = true := by
  rw [maIsEmpty, List.all_eq_true]
  intro e he
  rw [decide_eq_true_eq, ← maQty_eq_entry m hnd e he]
  exact h e.1

theorem maAddEntry_keys_mem (m : MultiAsset) (k : AKey) (q : Int) (j : AKey)
    (h : j ∈ (maAddEntry m k q).map Prod.fst) : j ∈ m.map Prod.fst ∨ j = k := by
  induction m with
  | nil =>
    rcases List.mem_cons.mp h with h1 | h1
    · exact Or.inr h1
    · cases h1
  | cons e t ih =>
    by_cases hek : e.1 = k
    · rw [show maAddEntry (e :: t) k q = (k, e.2 + q) :: t from by
        simp [maAddEntry, hek]] at h
      rcases List.mem_cons.mp h with h1 | h1
      · exact Or.inr h1
      · exact Or.inl (List.mem_cons_of_mem _ h1)
    · rw [show maAddEntry (e :: t) k q = e :: maAddEntry t k q from by
        simp [maAddEntry, hek]] at h
      rcases List.mem_cons.mp h with h1 | h1
      · exact Or.inl (List.mem_cons.mpr (Or.inl h1))
      · rcases ih h1 with h2 | h2
        · exact Or.inl (List.mem_cons_of_mem _ h2)
        · exact Or.inr h2

theorem maAddEntry_nodupKeys (m : MultiAsset) (k : AKey) (q : Int)
    (hnd : (m.map Prod.fst).Nodup) : ((maAddEntry m k q).map Prod.fst).Nodup := by
  induction m with
  | nil => simp [maAddEntry]
  | cons e t ih =>
    rw [List.map_cons, List.nodup_cons] at hnd
    by_cases hek : e.1 = k
    · rw [show maAddEntry (e :: t) k q = (k, e.2 + q) :: t from by
        simp [maAddEntry, hek]]
      rw [List.map_cons, List.nodup_cons]
      exact ⟨hek ▸ hnd.1, hnd.2⟩
    · rw [show maAddEntry (e :: t) k q = e :: maAddEntry t k q from by
        simp [maAddEntry, hek]]
      rw [List.map_cons, List.nodup_cons]
      refine ⟨?_, ih hnd.2⟩
      intro hc
      rcases maAddEntry_keys_mem t k q e.1 hc with h2 | h2
      · exact hnd.1 h2
      · exact hek h2

theorem satStep_qty_ne (rem : MultiAsset) (e : AKey × Int) (k : AKey)
    (h : e.1 ≠ k) : maQty (satStep rem e) k = maQty rem k := by
  unfold satStep
  by_cases hreq : maQty rem e.1 ≤ 0
  · rw [if_pos hreq]
  · rw [if_neg hreq]
    rw [maQty_addEntry, if_neg h, add_zero]

theorem satStep_qty_self (rem : MultiAsset) (p : AKey) (q : Int) :
    maQty (satStep rem (p, q)) p =
      if maQty rem p ≤ 0 then maQty rem p
      else maQty rem p - (if maQty rem p ≤ q then maQty rem p else q) := by
  unfold satStep
  dsimp only
  by_cases hreq : maQty rem p ≤ 0
  · rw [if_pos hreq, if_pos hreq]
  · rw [if_neg hreq, if_neg hreq, maQty_addEntry, if_pos rfl]
    split_ifs <;> omega

theorem satStep_lower (rem : MultiAsset) (e : AKey × Int) (k : AKey)
    (he : 0 ≤ e.2) :
    maQty rem k - (if e.1 = k then e.2 else 0) ≤ maQty (satStep rem e) k := by
  obtain ⟨p, q⟩ := e
  dsimp only at he ⊢
  by_cases hpk : p = k
  · subst hpk
    rw [satStep_qty_self, if_pos rfl]
    split_ifs <;> omega
  · rw [satStep_qty_ne rem (p, q) k hpk, if_neg hpk]
    omega

theorem satStep_upper (rem : MultiAsset) (e : AKey × Int) (k : AKey) :
    maQty (satStep rem e) k ≤ maQty rem k - (if e.1 = k then e.2 else 0) ∨
      maQty (satStep rem e) k ≤ 0 := by
  obtain ⟨p, q⟩ := e
  dsimp only
  by_cases hpk : p = k
  · subst hpk
    rw [satStep_qty_self, if_pos rfl]
    split_ifs <;> omega
  · rw [satStep_qty_ne rem (p, q) k hpk, if_neg hpk]
    omega

theorem satStep_nodupKeys (rem : MultiAsset) (e : AKey × Int)
    (hnd : (rem.map Prod.fst).Nodup) : ((satStep rem e).map Prod.fst).Nodup := by
  unfold satStep
  by_cases hreq : maQty rem e.1 ≤ 0
  · rw [if_pos hreq]; exact hnd
  · rw [if_neg hreq]; exact maAddEntry_nodupKeys _ _ _ hnd

theorem satSub_nil (rem : MultiAsset) : subtractAssetsSaturating rem [] = rem := rfl

theorem satSub_cons (rem : MultiAsset) (e : AKey × Int) (t : MultiAsset) :
    subtractAssetsSaturating rem (e :: t) =
      subtractAssetsSaturating (satStep rem e) t := rfl

theorem satSub_nodupKeys (ua : MultiAsset) : ∀ (rem : MultiAsset),
    (rem.map Prod.fst).Nodup →
    ((subtractAssetsSaturating rem ua).map Prod.fst).Nodup := by
  induction ua with
  | nil => intro rem h; exact h
  | cons e t ih =>
    intro rem h
    rw [satSub_cons]
    exact ih _ (satStep_nodupKeys rem e h)

theorem satSub_preserve (ua : MultiAsset) : ∀ (rem : MultiAsset) (k : AKey),
    (∀ e ∈ ua, e.1 ≠ k) →
    maQty (subtractAssetsSaturating rem ua) k = maQty rem k := by
  induction ua with
  | nil => intro rem k _; rfl
  | cons e t ih =>
    intro rem k h
    rw [satSub_cons, ih _ k (fun e2 he2 => h e2 (List.mem_cons_of_mem _ he2)),
      satStep_qty_ne rem e k (h e (List.mem_cons_self _ _))]

theorem satSub_lower_nonneg (ua : MultiAsset) : ∀ (rem : MultiAsset) (k : AKey),
    (∀ e ∈ ua, 0 ≤ e.2) →
    maQty rem k - maQty ua k ≤ maQty (subtractAssetsSaturating rem ua) k := by
  induction ua with
  | nil => intro rem k _; rw [satSub_nil, maQty_nil]; omega
  | cons e t ih =>
    intro rem k h
    rw [satSub_cons, maQty_cons]
    have hstep := satStep_lower rem e k (h e (List.mem_cons_self _ _))
    have hrec := ih (satStep rem e) k (fun e2 he2 => h e2 (List.mem_cons_of_mem _ he2))
    have hite : 0 ≤ (if e.1 = k then e.2 else 0) := by
      have he2 : 0 ≤ e.2 := h e (List.mem_cons_self _ _)
      split_ifs <;> omega
    omega

theorem satSub_upper_nonneg (ua : MultiAsset) : ∀ (rem : MultiAsset) (k : AKey),
    (∀ e ∈ ua, 0 ≤ e.2) →
    maQty (subtractAssetsSaturating rem ua) k ≤ max (maQty rem k - maQty ua k) 0 := by
  induction ua with
  | nil => intro rem k _; rw [satSub_nil, maQty_nil]; omega
  | cons e t ih =>
    intro rem k h
    rw [satSub_cons, maQty_cons]
    have hstep := satStep_upper rem e k
    have htq : 0 ≤ maQty t k :=
      maQty_nonneg t (fun e2 he2 => h e2 (List.mem_cons_of_mem _ he2)) k
    have hrec := ih (satStep rem e) k (fun e2 he2 => h e2 (List.mem_cons_of_mem _ he2))
    have hite : 0 ≤ (if e.1 = k then e.2 else 0) := by
      have he2 : 0 ≤ e.2 := h e (List.mem_cons_self _ _)
      split_ifs <;> omega
    omega

theorem satSub_lower_nodup (ua : MultiAsset) : ∀ (rem : MultiAsset) (k : AKey),
    ((ua.map Prod.fst).Nodup) → 0 < maQty rem k →
    maQty rem k - maQty ua k ≤ maQty (subtractAssetsSaturating rem ua) k := by
  induction ua with
  | nil => intro rem k _ _; rw [satSub_nil, maQty_nil]; omega
  | cons e t ih =>
    intro rem k hnd hpos
    rw [List.map_cons, List.nodup_cons] at hnd
    rw [satSub_cons, maQty_cons]
    obtain ⟨p, q⟩ := e
    dsimp only at hnd ⊢
    by_cases hpk : p = k
    · subst hpk
      have ht : ∀ e2 ∈ t, e2.1 ≠ p := by
        intro e2 he2 hc
        exact hnd.1 (hc ▸ List.mem_map_of_mem Prod.fst he2)
      have htq : maQty t p = 0 := maQty_no_key t p ht
      rw [satSub_preserve t _ p ht, satStep_qty_self,
        if_neg (show ¬ maQty rem p ≤ 0 by omega), if_pos (rfl : p = p)]
      split_ifs <;> omega
    · have hp : maQty (satStep rem (p, q)) k = maQty rem k :=
        satStep_qty_ne rem (p, q) k hpk
      have hrec := ih (satStep rem (p, q)) k hnd.2 (by rw [hp]; exact hpos)
      rw [hp] at hrec
      rw [if_neg hpk]
      omega

theorem satSub_upper_nodup (ua : MultiAsset) : ∀ (rem : MultiAsset) (k : AKey),
    ((ua.map Prod.fst).Nodup) →
    maQty (subtractAssetsSaturating rem ua) k ≤ max (maQty rem k - maQty ua k) 0 := by
  induction ua with
  | nil => intro rem k _; rw [satSub_nil, maQty_nil]; omega
  | cons e t ih =>
    intro rem k hnd
    rw [List.map_cons, List.nodup_cons] at hnd
    rw [satSub_cons, maQty_cons]
    obtain ⟨p, q⟩ := e
    dsimp only at hnd ⊢
    by_cases hpk : p = k
    · subst hpk
      have ht : ∀ e2 ∈ t, e2.1 ≠ p := by
        intro e2 he2 hc
        exact hnd.1 (hc ▸ List.mem_map_of_mem Prod.fst he2)
      have htq : maQty t p = 0 := maQty_no_key t p ht
      rw [satSub_preserve t _ p ht, satStep_qty_self, if_pos (rfl : p = p)]
      split_ifs <;> omega
    · have hp : maQty (satStep rem (p, q)) k = maQty rem k :=
        satStep_qty_ne rem (p, q) k hpk
      have hrec := ih (satStep rem (p, q)) k hnd.2
      rw [hp] at hrec
      rw [if_neg hpk]
      omega

-- ## Per-UTxO accounting

/-- The lovelace a UTxO supplies to the selector (0 when the amount is
nil, matching the skipped subtraction in the Go loop). -/
def supplyCoin (u : Utxo) : Nat := u.amount.getD 0

/-- The quantity of asset `k` a UTxO supplies. -/
def Utxo.qty (u : Utxo) (k : AKey) : Int :=
  match u.assets with
  | none => 0
  | some m => maQty m k

/-- Total lovelace supplied by a list of UTxOs (exact sum). -/
def sumCoin (l : List Utxo) : Nat := (l.map supplyCoin).sum

/-- Total quantity of asset `k` supplied by a list of UTxOs. -/
def sumQty (l : List Utxo) (k : AKey) : Int := (l.map (fun u => u.qty k)).sum

theorem sumCoin_nil : sumCoin [] = 0 := rfl

theorem sumCoin_cons (u : Utxo) (t : List Utxo) :
    sumCoin (u :: t) = supplyCoin u + sumCoin t := by
  simp [sumCoin]

theorem sumQty_nil (k : AKey) : sumQty [] k = 0 := rfl

theorem sumQty_cons (u : Utxo) (t : List Utxo) (k : AKey) :
    sumQty (u :: t) k = u.qty k + sumQty t k := by
  simp [sumQty]

theorem utxoQty_nonneg (u : Utxo) (hu : ∀ e ∈ u.assets.getD [], 0 ≤ e.2) (k : AKey) :
    0 ≤ u.qty k := by
  unfold Utxo.qty
  cases hua : u.assets with
  | none => exact le_refl 0
  | some m =>
    rw [hua] at hu
    exact maQty_nonneg m hu k

theorem sumQty_nonneg (l : List Utxo) (h : ∀ u ∈ l, ∀ e ∈ u.assets.getD [], 0 ≤ e.2)
    (k : AKey) : 0 ≤ sumQty l k := by
  induction l with
  | nil => simp [sumQty_nil]
  | cons u t ih =>
    rw [sumQty_cons]
    have h1 := utxoQty_nonneg u (h u (List.mem_cons_self _ _)) k
    have h2 := ih (fun u2 hu2 => h u2 (List.mem_cons_of_mem _ hu2))
    omega

theorem consume_coin (rem : Value) (u : Utxo) :
    (consumeUtxo rem u).coin = rem.coin - supplyCoin u := by
  unfold consumeUtxo supplyCoin
  cases u.amount <;> simp

theorem consume_qty_lower (rem : Value) (u : Utxo)
    (hu : ∀ e ∈ u.assets.getD [], 0 ≤ e.2) (k : AKey) :
    rem.qty k - u.qty k ≤ (consumeUtxo rem u).qty k := by
  unfold consumeUtxo Value.qty Utxo.qty
  cases hra : rem.assets with
  | none =>
    cases hua : u.assets with
    | none => simp
    | some m =>
      rw [hua] at hu
      have := maQty_nonneg m hu k
      simp
      omega
  | some rm =>
    cases hua : u.assets with
    | none => simp
    | some m =>
      rw [hua] at hu
      simp only
      exact satSub_lower_nonneg m rm k hu

theorem consume_qty_upper (rem : Value) (u : Utxo)
    (hu : ∀ e ∈ u.assets.getD [], 0 ≤ e.2) (k : AKey) :
    (consumeUtxo rem u).qty k ≤ max (rem.qty k - u.qty k) 0 := by
  unfold consumeUtxo Value.qty Utxo.qty
  cases hra : rem.assets with
  | none =>
    cases hua : u.assets with
    | none => simp
    | some m => simp
  | some rm =>
    cases hua : u.assets with
    | none => simp
    | some m =>
      rw [hua] at hu
      simp only
      exact satSub_upper_nonneg m rm k hu

theorem consume_nodupKeys (rem : Value) (u : Utxo)
    (h : ((rem.assets.getD []).map Prod.fst).Nodup) :
    (((consumeUtxo rem u).assets.getD []).map Prod.fst).Nodup := by
  unfold consumeUtxo
  cases hra : rem.assets with
  | none =>
    cases u.assets <;> simp
  | some rm =>
    rw [hra] at h
    cases hua : u.assets with
    | none => exact h
    | some m => exact satSub_nodupKeys m rm h

theorem hasAssets_false_qty (v : Value) (h : v.hasAssets = false) (k : AKey) :
    v.qty k ≤ 0 := by
  unfold Value.hasAssets at h
  unfold Value.qty
  cases hva : v.assets with
  | none => exact le_refl 0
  | some m =>
    rw [hva] at h
    rw [Bool.not_eq_false'] at h
    exact maIsEmpty_qty h k

theorem hasAssets_false_of_nonpos (v : Value)
    (hnd : ((v.assets.getD []).map Prod.fst).Nodup)
    (h : ∀ k, v.qty k ≤ 0) : v.hasAssets = false := by
  unfold Value.hasAssets
  cases hva : v.assets with
  | none => rfl
  | some m =>
    rw [hva] at hnd
    rw [Bool.not_eq_false']
    refine maIsEmpty_of_qty_nonpos m (by simpa using hnd) ?_
    intro k
    have := h k
    unfold Value.qty at this
    rw [hva] at this
    exact this

theorem isUsed_false_not_mem (b : Builder) (r : Nat × Nat)
    (h : isUsed b r = false) : r ∉ b.usedUtxos := by
  unfold isUsed at h
  rw [Bool.or_eq_false_iff] at h
  intro hmem
  have := List.any_eq_false.mp h.1 r hmem
  simp at this

-- ## Loop invariants of the selection loop

theorem selectLoop_ok (b : Builder) :
    ∀ (pool : List Utxo) (remaining : Value) (selected : List Utxo)
      (refs : List (Nat × Nat)) (out : List Utxo) (b2 : Builder),
      (∀ u ∈ pool, ∀ e ∈ u.assets.getD [], 0 ≤ e.2) →
      selectLoop b pool remaining selected refs = (.ok out, b2) →
      ∃ suf, out = selected ++ suf ∧ List.Sublist suf pool ∧
        (∀ u ∈ suf, isUsed b (utxoRef u) = false) ∧
        b2 = { b with usedUtxos := b.usedUtxos ++ refs ++ suf.map utxoRef } ∧
        remaining.coin ≤ sumCoin suf ∧
        (∀ k, remaining.qty k ≤ sumQty suf k) := by
  intro pool
  induction pool with
  | nil =>
    intro remaining selected refs out b2 hpool h
    simp only [selectLoop] at h
    by_cases hcond : (decide (remaining.coin > 0) || remaining.hasAssets) = true
    · rw [if_pos hcond, Prod.mk.injEq] at h
      exact absurd h.1 (by simp)
    · rw [if_neg hcond, Prod.mk.injEq] at h
      obtain ⟨h1, h2⟩ := h
      injection h1 with h1
      simp only [Bool.or_eq_true, decide_eq_true_eq, not_or] at hcond
      have hc0 : remaining.coin = 0 := by omega
      have hna : remaining.hasAssets = false := by simpa using hcond.2
      refine ⟨[], by rw [← h1, List.append_nil], List.Sublist.refl _, by simp, ?_, ?_, ?_⟩
      · rw [← h2]
        simp
      · rw [sumCoin_nil]
        omega
      · intro k
        rw [sumQty_nil]
        exact hasAssets_false_qty remaining hna k
  | cons u rest ih =>
    intro remaining selected refs out b2 hpool h
    have hpoolrest : ∀ u2 ∈ rest, ∀ e ∈ u2.assets.getD [], 0 ≤ e.2 :=
      fun u2 h2 => hpool u2 (List.mem_cons_of_mem _ h2)
    have hu : ∀ e ∈ u.assets.getD [], 0 ≤ e.2 := hpool u (List.mem_cons_self _ _)
    simp only [selectLoop] at h
    by_cases hused : isUsed b (utxoRef u) = true
    · rw [if_pos hused] at h
      obtain ⟨suf, h1, h2, h3, h4, h5, h6⟩ := ih _ _ _ _ _ hpoolrest h
      exact ⟨suf, h1, h2.cons _, h3, h4, h5, h6⟩
    · rw [if_neg hused] at h
      by_cases hdone : ((consumeUtxo remaining u).coin = 0 &&
          !(consumeUtxo remaining u).hasAssets) = true
      · rw [if_pos hdone, Prod.mk.injEq] at h
        obtain ⟨h1, h2⟩ := h
        injection h1 with h1
        rw [Bool.and_eq_true] at hdone
        have hcz : (consumeUtxo remaining u).coin = 0 := by
          have := hdone.1
          simpa using this
        have hca : (consumeUtxo remaining u).hasAssets = false := by
          have := hdone.2
          simpa using this
        refine ⟨[u], by rw [← h1], (List.nil_sublist rest).cons₂ u, ?_, ?_, ?_, ?_⟩
        · intro u2 hu2
          rw [List.mem_singleton] at hu2
          subst hu2
          exact Bool.not_eq_true _ ▸ hused
        · rw [← h2]
          simp
        · have hc := consume_coin remaining u
          rw [sumCoin_cons, sumCoin_nil]
          omega
        · intro k
          have hl := consume_qty_lower remaining u hu k
          have hz := hasAssets_false_qty _ hca k
          rw [sumQty_cons, sumQty_nil]
          omega
      · rw [if_neg hdone] at h
        obtain ⟨suf, h1, h2, h3, h4, h5, h6⟩ := ih _ _ _ _ _ hpoolrest h
        refine ⟨u :: suf, ?_, h2.cons₂ u, ?_, ?_, ?_, ?_⟩
        · rw [h1]
          simp
        · intro u2 hu2
          rcases List.mem_cons.mp hu2 with rfl | hu2
          · exact Bool.not_eq_true _ ▸ hused
          · exact h3 u2 hu2
        · rw [h4]
          simp
        · have hc := consume_coin remaining u
          have := h5
          rw [sumCoin_cons]
          omega
        · intro k
          have hl := consume_qty_lower remaining u hu k
          have := h6 k
          rw [sumQty_cons]
          omega

theorem selectLoop_complete (b : Builder) :
    ∀ (pool : List Utxo) (remaining : Value) (selected : List Utxo)
      (refs : List (Nat × Nat)),
      (∀ u ∈ pool, ∀ e ∈ u.assets.getD [], 0 ≤ e.2) →
      ((remaining.assets.getD []).map Prod.fst).Nodup →
      remaining.coin ≤ sumCoin (pool.filter (fun u => !isUsed b (utxoRef u))) →
      (∀ k, remaining.qty k ≤ sumQty (pool.filter (fun u => !isUsed b (utxoRef u))) k) →
      ∃ out b2, selectLoop b pool remaining selected refs = (.ok out, b2) := by
  intro pool
  induction pool with
  | nil =>
    intro remaining selected refs hpool hnd hcoin hqty
    have hc0 : remaining.coin = 0 := by
      rw [List.filter_nil, sumCoin_nil] at hcoin
      omega
    have hna : remaining.hasAssets = false := by
      refine hasAssets_false_of_nonpos remaining hnd ?_
      intro k
      have := hqty k
      rwa [List.filter_nil, sumQty_nil] at this
    refine ⟨selected, { b with usedUtxos := b.usedUtxos ++ refs }, ?_⟩
    simp only [selectLoop]
    rw [if_neg (by rw [hc0, hna]; simp)]
  | cons u rest ih =>
    intro remaining selected refs hpool hnd hcoin hqty
    have hpoolrest : ∀ u2 ∈ rest, ∀ e ∈ u2.assets.getD [], 0 ≤ e.2 :=
      fun u2 h2 => hpool u2 (List.mem_cons_of_mem _ h2)
    have hu : ∀ e ∈ u.assets.getD [], 0 ≤ e.2 := hpool u (List.mem_cons_self _ _)
    simp only [selectLoop]
    by_cases hused : isUsed b (utxoRef u) = true
    · rw [if_pos hused]
      rw [List.filter_cons, if_neg (by simp [hused])] at hcoin hqty
      exact ih remaining selected refs hpoolrest hnd hcoin hqty
    · rw [if_neg hused]
      rw [List.filter_cons, if_pos (by simp [hused])] at hcoin hqty
      by_cases hdone : ((consumeUtxo remaining u).coin = 0 &&
          !(consumeUtxo remaining u).hasAssets) = true
      · rw [if_pos hdone]
        exact ⟨_, _, rfl⟩
      · rw [if_neg hdone]
        refine ih (consumeUtxo remaining u) (selected ++ [u]) (refs ++ [utxoRef u])
          hpoolrest (consume_nodupKeys remaining u hnd) ?_ ?_
        · have hc := consume_coin remaining u
          rw [sumCoin_cons] at hcoin
          omega
        · intro k
          have hup := consume_qty_upper remaining u hu k
          have := hqty k
          rw [sumQty_cons] at this
          have hnn : 0 ≤ sumQty (rest.filter (fun u => !isUsed b (utxoRef u))) k :=
            sumQty_nonneg _ (fun u2 hu2 => hpoolrest u2 (List.mem_of_mem_filter hu2)) k
          omega

-- ## C5: coin-selection guarantees

theorem greaterOrEqual_coin (v other : Value)
    (h : v.greaterOrEqual other = true) : other.coin ≤ v.coin := by
  unfold Value.greaterOrEqual at h
  by_cases hc : v.coin < other.coin
  · rw [if_pos hc] at h
    exact absurd h (by simp)
  · omega

theorem value_qty_none (v : Value) (k : AKey) (h : v.assets = none) :
    v.qty k = 0 := by
  unfold Value.qty
  rw [h]

theorem value_qty_some (v : Value) (m : MultiAsset) (k : AKey)
    (h : v.assets = some m) : v.qty k = maQty m k := by
  unfold Value.qty
  rw [h]

theorem greaterOrEqual_qty (v other : Value) (k : AKey)
    (h : v.greaterOrEqual other = true) (hpos : 0 < other.qty k) :
    other.qty k ≤ v.qty k := by
  unfold Value.greaterOrEqual at h
  by_cases hc : v.coin < other.coin
  · rw [if_pos hc] at h
    exact absurd h (by simp)
  · rw [if_neg hc] at h
    cases hob : other.assets with
    | none =>
      have := value_qty_none other k hob
      omega
    | some ob =>
      rw [hob] at h
      dsimp only at h
      have hoq := value_qty_some other ob k hob
      obtain ⟨e, he, hek⟩ := maQty_entry_of_ne_zero ob k (by omega)
      cases hva : v.assets with
      | none =>
        rw [hva] at h
        dsimp only at h
        have hvq := value_qty_none v k hva
        have := maIsEmpty_qty h k
        omega
      | some va =>
        rw [hva] at h
        dsimp only at h
        have hvq := value_qty_some v va k hva
        have hall := List.all_eq_true.mp h e he
        rw [decide_eq_true_eq, hek] at hall
        rcases hall with h1 | h1
        · omega
        · omega

theorem initRemaining_assets_reqnone (required currentInput : Value)
    (h : required.assets = none) :
    (initRemaining required currentInput).assets = none := by
  unfold initRemaining
  rw [h]

theorem initRemaining_assets_curnone (required currentInput : Value)
    (ra : MultiAsset) (h : required.assets = some ra)
    (h2 : currentInput.assets = none) :
    (initRemaining required currentInput).assets = some ra := by
  unfold initRemaining
  rw [h, h2]

theorem initRemaining_assets_both (required currentInput : Value)
    (ra ca : MultiAsset) (h : required.assets = some ra)
    (h2 : currentInput.assets = some ca) :
    (initRemaining required currentInput).assets =
      some (subtractAssetsSaturating ra ca) := by
  unfold initRemaining
  rw [h, h2]

theorem initRemaining_qty_lower (required currentInput : Value) (k : AKey)
    (hcur : ((currentInput.assets.getD []).map Prod.fst).Nodup)
    (hpos : 0 < required.qty k) :
    required.qty k - currentInput.qty k ≤ (initRemaining required currentInput).qty k := by
  cases hra : required.assets with
  | none =>
    have := value_qty_none required k hra
    omega
  | some ra =>
    have hreqq := value_qty_some required ra k hra
    cases hca : currentInput.assets with
    | none =>
      have hcq := value_qty_none currentInput k hca
      have hini := value_qty_some _ ra k
        (initRemaining_assets_curnone required currentInput ra hra hca)
      omega
    | some ca =>
      have hcq := value_qty_some currentInput ca k hca
      have hini := value_qty_some _ _ k
        (initRemaining_assets_both required currentInput ra ca hra hca)
      rw [hca] at hcur
      simp only [Option.getD_some] at hcur
      have := satSub_lower_nodup ca ra k hcur (by omega)
      omega

theorem initRemaining_qty_upper (required currentInput : Value) (k : AKey)
    (hcur : ((currentInput.assets.getD []).map Prod.fst).Nodup) :
    (initRemaining required currentInput).qty k ≤
      max (required.qty k - currentInput.qty k) 0 := by
  cases hra : required.assets with
  | none =>
    have h1 := value_qty_none required k hra
    have h2 := value_qty_none (initRemaining required currentInput) k
      (initRemaining_assets_reqnone required currentInput hra)
    omega
  | some ra =>
    have hreqq := value_qty_some required ra k hra
    cases hca : currentInput.assets with
    | none =>
      have hcq := value_qty_none currentInput k hca
      have hini := value_qty_some _ ra k
        (initRemaining_assets_curnone required currentInput ra hra hca)
      omega
    | some ca =>
      have hcq := value_qty_some currentInput ca k hca
      have hini := value_qty_some _ _ k
        (initRemaining_assets_both required currentInput ra ca hra hca)
      rw [hca] at hcur
      simp only [Option.getD_some] at hcur
      have := satSub_upper_nodup ca ra k hcur
      omega

theorem initRemaining_nodupKeys (required currentInput : Value)
    (hreq : ((required.assets.getD []).map Prod.fst).Nodup) :
    (((initRemaining required currentInput).assets.getD []).map Prod.fst).Nodup := by
  cases hra : required.assets with
  | none =>
    rw [initRemaining_assets_reqnone required currentInput hra]
    simp
  | some ra =>
    rw [hra] at hreq
    simp only [Option.getD_some] at hreq
    cases hca : currentInput.assets with
    | none =>
      rw [initRemaining_assets_curnone required currentInput ra hra hca]
      exact hreq
    | some ca =>
      rw [initRemaining_assets_both required currentInput ra ca hra hca]
      exact satSub_nodupKeys ca ra hreq

theorem sumCoin_perm {l1 l2 : List Utxo} (h : List.Perm l1 l2) :
    sumCoin l1 = sumCoin l2 :=
  List.Perm.sum_eq (h.map supplyCoin)

theorem sumQty_perm {l1 l2 : List Utxo} (h : List.Perm l1 l2) (k : AKey) :
    sumQty l1 k = sumQty l2 k :=
  List.Perm.sum_eq (h.map (fun u => u.qty k))

/-- C5: under the Go-map well-formedness conditions (distinct references
in the pool, no duplicate asset keys, nonnegative on-chain quantities),
coin selection (a) on success returns UTxOs which together with the
committed input cover the requirement on the coin and on every
positively-required asset, selects only UTxOs whose references are not
already used, selects no reference twice, and commits exactly the
selected references, so a later selection in the same finalize can never
re-select them; (b) on failure returns the explicit insufficient-funds
error with the builder untouched; and (c) never fails when the unused
pool together with the committed input covers the requirement. -/
theorem c5_selectCoins_spec (b : Builder) (required currentInput : Value)
    (hpool : ∀ u ∈ b.utxos, ∀ e ∈ u.assets.getD [], 0 ≤ e.2)
    (hrefs : (b.utxos.map utxoRef).Nodup)
    (hreq : ((required.assets.getD []).map Prod.fst).Nodup)
    (hcur : ((currentInput.assets.getD []).map Prod.fst).Nodup) :
    (∀ sel b2, selectCoins b required currentInput = (.ok sel, b2) →
      required.coin ≤ currentInput.coin + sumCoin sel ∧
      (∀ k, 0 < required.qty k →
        required.qty k ≤ currentInput.qty k + sumQty sel k) ∧
      (∀ u ∈ sel, isUsed b (utxoRef u) = false) ∧
      (sel.map utxoRef).Nodup ∧
      b2.usedUtxos = b.usedUtxos ++ sel.map utxoRef ∧
      (∀ required2 currentInput2 sel2 b3,
        selectCoins b2 required2 currentInput2 = (.ok sel2, b3) →
        ∀ u2 ∈ sel2, utxoRef u2 ∉ sel.map utxoRef)) ∧
    (∀ e b2, selectCoins b required currentInput = (.error e, b2) →
      e = "insufficient UTxOs to cover required value" ∧ b2 = b) ∧
    (required.coin ≤ currentInput.coin +
        sumCoin (b.utxos.filter (fun u => !isUsed b (utxoRef u))) →
     (∀ k, required.qty k ≤ currentInput.qty k +
        sumQty (b.utxos.filter (fun u => !isUsed b (utxoRef u))) k) →
     ∃ sel b2, selectCoins b required currentInput = (.ok sel, b2)) := by
  have hp_sorted : ∀ u ∈ SortUtxos b.utxos, ∀ e ∈ u.assets.getD [], 0 ≤ e.2 :=
    fun u hu => hpool u ((sortUtxos_perm b.utxos).mem_iff.mp hu)
  refine ⟨?_, ?_, ?_⟩
  · -- success
    intro sel b2 hok
    unfold selectCoins at hok
    by_cases hge : currentInput.greaterOrEqual required = true
    · rw [if_pos hge, Prod.mk.injEq] at hok
      obtain ⟨h1, h2⟩ := hok
      injection h1 with h1
      subst h2
      have hsel : sel = [] := h1.symm
      subst hsel
      refine ⟨?_, ?_, by simp, by simp, by simp, ?_⟩
      · have := greaterOrEqual_coin currentInput required hge
        rw [sumCoin_nil]
        omega
      · intro k hpos
        have := greaterOrEqual_qty currentInput required k hge hpos
        rw [sumQty_nil]
        omega
      · intro required2 currentInput2 sel2 b3 _ u2 _
        simp
    · rw [if_neg hge] at hok
      obtain ⟨suf, h1, h2, h3, h4, h5, h6⟩ :=
        selectLoop_ok b (SortUtxos b.utxos) _ [] [] sel b2 hp_sorted hok
      rw [List.nil_append] at h1
      subst h1
      have hsortNodup : ((SortUtxos b.utxos).map utxoRef).Nodup :=
        (List.Perm.nodup_iff ((sortUtxos_perm b.utxos).map utxoRef)).mpr hrefs
      refine ⟨?_, ?_, h3, List.Nodup.sublist (h2.map utxoRef) hsortNodup, ?_, ?_⟩
      · have hic : (initRemaining required currentInput).coin =
            required.coin - currentInput.coin := rfl
        omega
      · intro k hpos
        have hl := initRemaining_qty_lower required currentInput k hcur hpos
        have := h6 k
        omega
      · rw [h4]
        simp
      · intro required2 currentInput2 sel2 b3 hok2 u2 hu2
        unfold selectCoins at hok2
        by_cases hge2 : currentInput2.greaterOrEqual required2 = true
        · rw [if_pos hge2, Prod.mk.injEq] at hok2
          obtain ⟨hx, _⟩ := hok2
          injection hx with hx
          rw [← hx] at hu2
          cases hu2
        · rw [if_neg hge2] at hok2
          have hb2utxos : b2.utxos = b.utxos := by rw [h4]
          have hp2 : ∀ u ∈ SortUtxos b2.utxos, ∀ e ∈ u.assets.getD [], 0 ≤ e.2 := by
            rw [hb2utxos]
            exact hp_sorted
          obtain ⟨suf2, g1, g2, g3, g4, g5, g6⟩ :=
            selectLoop_ok b2 (SortUtxos b2.utxos) _ [] [] sel2 b3 hp2 hok2
          rw [List.nil_append] at g1
          subst g1
          have hunused := g3 u2 hu2
          have hnotmem := isUsed_false_not_mem b2 (utxoRef u2) hunused
          intro hmem
          apply hnotmem
          rw [h4]
          simp only [List.nil_append]
          exact List.mem_append.mpr (Or.inr hmem)
  · -- explicit failure
    intro e b2 herr
    unfold selectCoins at herr
    by_cases hge : currentInput.greaterOrEqual required = true
    · rw [if_pos hge, Prod.mk.injEq] at herr
      exact absurd herr.1 (by simp)
    · rw [if_neg hge] at herr
      have := selectLoop_error_frame b _ _ _ _ e b2 herr
      exact ⟨this.2, this.1⟩
  · -- completeness
    intro hcoin hqty
    unfold selectCoins
    by_cases hge : currentInput.greaterOrEqual required = true
    · rw [if_pos hge]
      exact ⟨[], b, rfl⟩
    · rw [if_neg hge]
      have hfperm : List.Perm
          ((SortUtxos b.utxos).filter (fun u => !isUsed b (utxoRef u)))
          (b.utxos.filter (fun u => !isUsed b (utxoRef u))) :=
        (sortUtxos_perm b.utxos).filter _
      refine selectLoop_complete b (SortUtxos b.utxos) _ [] [] hp_sorted
        (initRemaining_nodupKeys required currentInput hreq) ?_ ?_
      · rw [sumCoin_perm hfperm]
        have hic : (initRemaining required currentInput).coin =
            required.coin - currentInput.coin := rfl
        omega
      · intro k
        rw [sumQty_perm hfperm]
        have hup := initRemaining_qty_upper required currentInput k hcur
        have := hqty k
        have hnn : 0 ≤ sumQty (b.utxos.filter (fun u => !isUsed b (utxoRef u))) k :=
          sumQty_nonneg _ (fun u2 hu2 => hpool u2 (List.mem_of_mem_filter hu2)) k
        omega

/-- Witness for `c5_selectCoins_spec`: a one-UTxO pool covering a simple
5-lovelace requirement yields a successful selection. -/
theorem c5_selectCoins_spec_witness :
    ∃ sel b2,
      selectCoins
        { utxos := [{ txId := 1, idx := 0, amount := some 10, assets := none }],
          preselectedUtxos := [], usedUtxos := [] }
        (NewSimpleValue 5) (NewSimpleValue 0) = (.ok sel, b2) := by
  refine (c5_selectCoins_spec
    { utxos := [{ txId := 1, idx := 0, amount := some 10, assets := none }],
      preselectedUtxos := [], usedUtxos := [] }
    (NewSimpleValue 5) (NewSimpleValue 0)
    (by decide) (by decide) (by decide) (by decide)).2.2 (by decide) ?_
  intro k
  simp [Value.qty, NewSimpleValue, sumQty, Utxo.qty, isUsed]

-- ## C9: a builder is never finalized twice (apollo.go Complete, guard)

/-- The slice of builder state the finalize-once guard observes: the
optional already-built transaction (abstract). -/
structure BuilderTx where
  tx : Option Nat
deriving DecidableEq

/-- The head of Go `Complete` (apollo.go:850-856): if the builder already
holds a transaction, return the builder unchanged with an error before
any other work; otherwise continue with the rest of the pipeline,
abstracted here as `rest`. -/
def Complete (a : BuilderTx) (rest : BuilderTx → BuilderTx × Except String Unit) :
    BuilderTx × Except String Unit :=
  if a.tx.isSome then
    (a, .error "transaction already built - call Complete() only once")
  else rest a

/-- C9: on a builder whose finalize already produced a transaction
(`tx = some t`), any further `Complete` call -- whatever the rest of the
pipeline would do -- returns the distinguished already-built error and
hands back the builder unchanged, its transaction still `t`. -/
theorem c9_complete_only_once (a : BuilderTx)
    (rest : BuilderTx → BuilderTx × Except String Unit) (t : Nat)
    (h : a.tx = some t) :
    Complete a rest =
      (a, .error "transaction already built - call Complete() only once") ∧
    (Complete a rest).1.tx = some t := by
  unfold Complete
  rw [h]
  exact ⟨rfl, h⟩

/-- Witness for `c9_complete_only_once` at a concrete built builder. -/
theorem c9_complete_only_once_witness :
    Complete { tx := some 42 } (fun a => (a, .ok ())) =
      ({ tx := some 42 }, .error "transaction already built - call Complete() only once") ∧
    (Complete { tx := some 42 } (fun a => (a, .ok ()))).1.tx = some 42 :=
  c9_complete_only_once { tx := some 42 } (fun a => (a, .ok ())) 42 rfl

-- ## C3: auto-collateral target amount (apollo.go setCollateral,
-- backend/base.go ComputeMaxTxFee)

/-- Go `backend.ComputeMaxTxFee`: validate non-negative parameters, then
`uint64(MaxTxSize)*uint64(MinFeeCoefficient) + uint64(MinFeeConstant)`
in wrapping `uint64` arithmetic. -/
def ComputeMaxTxFee (maxTxSize minFeeCoefficient minFeeConstant : Int) :
    Except String Nat :=
  if maxTxSize < 0 ∨ minFeeCoefficient < 0 ∨ minFeeConstant < 0 then
    .error "invalid protocol parameters"
  else
    .ok ((maxTxSize.toNat * minFeeCoefficient.toNat % U64 + minFeeConstant.toNat) % U64)

/-- The collateral target amount selected at the top of Go
`setCollateral` (apollo.go:1820-1832): the caller override when
positive; else, when protocol parameters and the max fee are available
and the percent is positive, `int64(maxFee) * int64(percent) / 100`
(Go wrapping multiplication and truncating integer division), kept only
when positive; else the fixed fallback 5,000,000. -/
def setCollateralTarget (collateralAmount : Int) (pp : Option Int)
    (maxFee : Option Nat) : Int :=
  if 0 < collateralAmount then collateralAmount
  else
    match pp with
    | some collateralPercent =>
      match maxFee with
      | some mf =>
        if 0 < collateralPercent then
          let computed := Int.tdiv (toInt64 (toInt64u mf * collateralPercent)) 100
          if 0 < computed then computed else 5000000
        else 5000000
      | none => 5000000
    | none => 5000000

/-- Modelled from the spec: the claimed collateral target
`ceil(maxFee * collateralPercent / 100)`. -/
def specCeilCollateralTarget (maxFee collateralPercent : Nat) : Nat :=
  (maxFee * collateralPercent + 99) / 100

/-- C3 counterexample: protocol parameters `MaxTxSize = 1`,
`MinFeeCoefficient = 1`, `MinFeeConstant = 0` give `maxFee = 1`; with
`collateralPercent = 150` and no caller override the code computes
`1 * 150 / 100 = 1` (truncating division), while the claimed ceiling is
`2`.  The claim that the target equals the ceiling is false. -/
theorem c3_collateral_ceil_counterexample :
    ComputeMaxTxFee 1 1 0 = .ok 1 ∧
    setCollateralTarget 0 (some 150) (some 1) = 1 ∧
    specCeilCollateralTarget 1 150 = 2 ∧
    setCollateralTarget 0 (some 150) (some 1) ≠ (specCeilCollateralTarget 1 150 : Int) := by
  refine ⟨by decide, by decide, by decide, by decide⟩

theorem toInt64u_eq_self (x : Nat) (h : x < I63) : toInt64u x = x := by
  unfold toInt64u
  rw [if_pos h]

theorem toInt64_eq_self (x : Int) (h1 : -(I63 : Int) ≤ x) (h2 : x < (I63 : Int)) :
    toInt64 x = x := by
  unfold toInt64
  have hU : (U64 : Int) = 18446744073709551616 := by norm_num [U64]
  have hI : (I63 : Int) = 9223372036854775808 := by norm_num [I63]
  rw [Int.emod_eq_of_lt (by omega) (by omega)]
  omega

/-- C3 (amended): when no caller override is set, protocol parameters
and max fee are available, the percent is positive, the `int64`
arithmetic does not overflow and the computed amount is positive, the
auto-collateral target equals `floor(maxFee * collateralPercent / 100)`
-- Go truncating integer division, not the ceiling. -/
theorem c3_collateral_target_floor (collateralAmount : Int) (percent : Int)
    (mf : Nat) (hca : collateralAmount ≤ 0) (hpercent : 0 < percent)
    (hmf : mf < I63) (hnowrap : (mf : Int) * percent < (I63 : Int))
    (hpos : 0 < Int.tdiv ((mf : Int) * percent) 100) :
    setCollateralTarget collateralAmount (some percent) (some mf) =
      Int.tdiv ((mf : Int) * percent) 100 := by
  have h0 : (0 : Int) ≤ (mf : Int) * percent :=
    mul_nonneg (by positivity) (le_of_lt hpercent)
  have hlow : -(I63 : Int) ≤ (mf : Int) * percent := by
    have : (0 : Int) < (I63 : Int) := by norm_num [I63]
    omega
  unfold setCollateralTarget
  rw [if_neg (by omega)]
  dsimp only
  rw [if_pos hpercent, toInt64u_eq_self mf hmf, toInt64_eq_self _ hlow hnowrap,
    if_pos hpos]

/-- Witness for `c3_collateral_target_floor`: `maxFee = 2`,
`percent = 150` give target `3`. -/
theorem c3_collateral_target_floor_witness :
    setCollateralTarget 0 (some 150) (some 2) = Int.tdiv ((2 : Nat) * 150) 100 :=
  c3_collateral_target_floor 0 150 2 (by decide) (by decide) (by decide)
    (by decide) (by decide)

-- ## C7: mint redeemer indices (apollo.go sortedMintPolicyIds /
-- buildRedeemerMap)

/-- The dedup loop of Go `sortedMintPolicyIds`: keep the first
occurrence of each policy id (the `seen` map accumulates in `acc`). -/
def goDedup (seen : List String) : List String → List String
  | [] => []
  | p :: t => if p ∈ seen then goDedup seen t else p :: goDedup (p :: seen) t

/-- Go `sortedMintPolicyIds`: the distinct policy ids of the pending
mint units, sorted ascending as strings (`sort.Strings` on the
hex-encoded policy ids). -/
def sortedMintPolicyIds (mintPolicies : List String) : List String :=
  List.insertionSort (· ≤ ·) (goDedup [] mintPolicies)

/-- The index scan of the mint-redeemer block of Go `buildRedeemerMap`:
the position of a policy id in the sorted distinct policy list, `none`
when the policy is not minted (the redeemer is then skipped). -/
def findIndex (p : String) : List String → Option Nat
  | [] => none
  | q :: t => if q = p then some 0 else (findIndex p t).map (· + 1)

/-- Go `buildRedeemerMap`, mint case: the ledger index assigned to the
mint redeemer keyed by `policyHex`. -/
def mintRedeemerIndex (mintPolicies : List String) (policyHex : String) : Option Nat :=
  findIndex policyHex (sortedMintPolicyIds mintPolicies)

theorem goDedup_mem (l : List String) : ∀ (seen : List String) (p : String),
    p ∈ goDedup seen l ↔ (p ∈ l ∧ p ∉ seen) := by
  induction l with
  | nil => intro seen p; simp [goDedup]
  | cons q t ih =>
    intro seen p
    show p ∈ (if q ∈ seen then goDedup seen t else q :: goDedup (q :: seen) t) ↔ _
    by_cases hq : q ∈ seen
    · rw [if_pos hq, ih]
      constructor
      · exact fun h => ⟨List.mem_cons_of_mem _ h.1, h.2⟩
      · rintro ⟨h1, h2⟩
        rcases List.mem_cons.mp h1 with rfl | h1
        · exact absurd hq h2
        · exact ⟨h1, h2⟩
    · rw [if_neg hq, List.mem_cons, ih]
      constructor
      · rintro (rfl | ⟨h1, h2⟩)
        · exact ⟨List.mem_cons_self _ _, hq⟩
        · refine ⟨List.mem_cons_of_mem _ h1, fun hc => h2 (List.mem_cons_of_mem _ hc)⟩
      · rintro ⟨h1, h2⟩
        rcases List.mem_cons.mp h1 with rfl | h1
        · exact Or.inl rfl
        · by_cases hpq : p = q
          · exact Or.inl hpq
          · exact Or.inr ⟨h1, by
              intro hc
              rcases List.mem_cons.mp hc with h3 | h3
              · exact hpq h3
              · exact h2 h3⟩

theorem goDedup_nodup (l : List String) : ∀ (seen : List String),
    (goDedup seen l).Nodup := by
  induction l with
  | nil => intro seen; simp [goDedup]
  | cons q t ih =>
    intro seen
    show (if q ∈ seen then goDedup seen t else q :: goDedup (q :: seen) t).Nodup
    by_cases hq : q ∈ seen
    · rw [if_pos hq]; exact ih seen
    · rw [if_neg hq, List.nodup_cons]
      refine ⟨?_, ih (q :: seen)⟩
      intro hc
      exact ((goDedup_mem t (q :: seen) q).mp hc).2 (List.mem_cons_self _ _)

theorem sortedMintPolicyIds_sorted (mintPolicies : List String) :
    List.Sorted (· ≤ ·) (sortedMintPolicyIds mintPolicies) :=
  List.sorted_insertionSort _ _

theorem sortedMintPolicyIds_perm (mintPolicies : List String) :
    List.Perm (sortedMintPolicyIds mintPolicies) (goDedup [] mintPolicies) :=
  List.perm_insertionSort _ _

theorem sortedMintPolicyIds_nodup (mintPolicies : List String) :
    (sortedMintPolicyIds mintPolicies).Nodup :=
  (List.Perm.nodup_iff (sortedMintPolicyIds_perm mintPolicies)).mpr
    (goDedup_nodup mintPolicies [])

theorem sortedMintPolicyIds_mem (mintPolicies : List String) (p : String) :
    p ∈ sortedMintPolicyIds mintPolicies ↔ p ∈ mintPolicies := by
  rw [(sortedMintPolicyIds_perm mintPolicies).mem_iff, goDedup_mem]
  simp

theorem findIndex_rank (l : List String) (p : String)
    (hs : List.Sorted (· ≤ ·) l) (hnd : l.Nodup) (hp : p ∈ l) :
    findIndex p l = some (l.countP (fun q => decide (q < p))) := by
  induction l with
  | nil => cases hp
  | cons q t ih =>
    rw [List.sorted_cons] at hs
    rw [List.nodup_cons] at hnd
    show (if q = p then some 0 else (findIndex p t).map (· + 1)) = _
    by_cases hqp : q = p
    · subst hqp
      have hzero : t.countP (fun r => decide (r < q)) = 0 := by
        rw [List.countP_eq_zero]
        intro r hr
        simp only [decide_eq_true_eq, not_lt]
        exact hs.1 r hr
      rw [if_pos rfl, List.countP_cons, hzero]
      simp
    · have hpt : p ∈ t := by
        rcases List.mem_cons.mp hp with h1 | h1
        · exact absurd h1.symm hqp
        · exact h1
      have hlt : q < p := lt_of_le_of_ne (hs.1 p hpt) hqp
      rw [if_neg hqp, ih hs.2 hnd.2 hpt, List.countP_cons]
      simp [hlt]

/-- C7: the index assigned to a mint redeemer is the position of its
policy id in the ascending (string/hex) sort of the distinct minted
policy ids: concretely, the number of distinct minted policy ids
strictly below it; and since `sortedMintPolicyIds` depends only on the
set of minted policy ids, the assignment is independent of the order in
which the mints were attached. -/
theorem c7_mint_redeemer_index (mint1 mint2 : List String) (p : String)
    (hset : ∀ q, q ∈ mint1 ↔ q ∈ mint2) (hp : p ∈ mint1) :
    sortedMintPolicyIds mint1 = sortedMintPolicyIds mint2 ∧
    mintRedeemerIndex mint1 p = mintRedeemerIndex mint2 p ∧
    mintRedeemerIndex mint1 p =
      some ((sortedMintPolicyIds mint1).countP (fun q => decide (q < p))) ∧
    List.Sorted (· ≤ ·) (sortedMintPolicyIds mint1) ∧
    (sortedMintPolicyIds mint1).Nodup ∧
    (∀ q, q ∈ sortedMintPolicyIds mint1 ↔ q ∈ mint1) := by
  have hmem1 := sortedMintPolicyIds_mem mint1
  have hmem2 := sortedMintPolicyIds_mem mint2
  have hperm : List.Perm (sortedMintPolicyIds mint1) (sortedMintPolicyIds mint2) := by
    rw [List.perm_ext_iff_of_nodup (sortedMintPolicyIds_nodup mint1)
      (sortedMintPolicyIds_nodup mint2)]
    intro a
    rw [hmem1 a, hmem2 a]
    exact hset a
  have heq : sortedMintPolicyIds mint1 = sortedMintPolicyIds mint2 :=
    List.eq_of_perm_of_sorted hperm (sortedMintPolicyIds_sorted mint1)
      (sortedMintPolicyIds_sorted mint2)
  refine ⟨heq, ?_, ?_, sortedMintPolicyIds_sorted mint1,
    sortedMintPolicyIds_nodup mint1, hmem1⟩
  · unfold mintRedeemerIndex
    rw [heq]
  · unfold mintRedeemerIndex
    exact findIndex_rank _ p (sortedMintPolicyIds_sorted mint1)
      (sortedMintPolicyIds_nodup mint1) ((hmem1 p).mpr hp)

/-- Witness for `c7_mint_redeemer_index`: the spec's concrete scenario --
two policies attached in reverse hex order still index in ascending hex
order ("aa" gets index 0, although "bb" was attached first). -/
theorem c7_mint_redeemer_index_witness :
    sortedMintPolicyIds ["bb", "aa"] = sortedMintPolicyIds ["aa", "bb"] ∧
    mintRedeemerIndex ["bb", "aa"] "aa" = mintRedeemerIndex ["aa", "bb"] "aa" ∧
    mintRedeemerIndex ["bb", "aa"] "aa" =
      some ((sortedMintPolicyIds ["bb", "aa"]).countP (fun q => decide (q < "aa"))) ∧
    List.Sorted (· ≤ ·) (sortedMintPolicyIds ["bb", "aa"]) ∧
    (sortedMintPolicyIds ["bb", "aa"]).Nodup ∧
    (∀ q, q ∈ sortedMintPolicyIds ["bb", "aa"] ↔ q ∈ ["bb", "aa"]) := by
  refine c7_mint_redeemer_index ["bb", "aa"] ["aa", "bb"] "aa" ?_ ?_
  · intro q
    constructor <;> (intro h; rcases List.mem_cons.mp h with h1 | h1)
    · exact List.mem_cons_of_mem _ (h1 ▸ List.mem_cons_self _ _)
    · rcases List.mem_cons.mp h1 with h2 | h2
      · exact h2 ▸ List.mem_cons_self _ _
      · cases h2
    · exact List.mem_cons_of_mem _ (h1 ▸ List.mem_cons_self _ _)
    · rcases List.mem_cons.mp h1 with h2 | h2
      · exact h2 ▸ List.mem_cons_self _ _
      · cases h2
  · exact List.mem_cons_of_mem _ (List.mem_cons_self _ _)

-- ## C1: cost-model versions in the script-data hash
-- (apollo.go buildBody:1553-1565, ComputeScriptDataHash)

/-- The language switch of Go `ComputeScriptDataHash`: map a cost-model
map key to its language-view version. -/
def costModelVersion (lang : String) : Except String Nat :=
  match lang with
  | "PlutusV1" => .ok 0
  | "PlutusV2" => .ok 1
  | "PlutusV3" => .ok 2
  | _ => .error "unsupported cost model language"

/-- The cost-model loop of Go `ComputeScriptDataHash`
(part_014:964-982): collect into `usedVersions` the version of every
entry of the cost-model map it was handed -- these are exactly the
language views that end up in the hashed encoding
(`EncodeLangViews(usedVersions, ...)`). -/
def scriptDataHashVersions : List (String × List Int) → Except String (List Nat)
  | [] => .ok []
  | (lang, _) :: t =>
    match costModelVersion lang with
    | .error e => .error e
    | .ok v =>
      match scriptDataHashVersions t with
      | .error e => .error e
      | .ok vs => .ok (if v ∈ vs then vs else v :: vs)

/-- The builder fields `buildBody` consults for the script-data hash:
the attached scripts by version, the three redeemer maps and the datum
list (entries abstracted to opaque identifiers). -/
structure BuilderScripts where
  v1scripts : List (List Nat)
  v2scripts : List (List Nat)
  v3scripts : List (List Nat)
  nativescripts : List (List Nat)
  redeemers : List (Nat × Nat)
  mintRedeemers : List (Nat × Nat)
  stakeRedeemers : List (Nat × Nat)
  datums : List Nat
deriving DecidableEq

/-- The guard at apollo.go:1554: a script-data hash is computed iff some
redeemer map or the datum list is nonempty. -/
def hasScriptData (b : BuilderScripts) : Bool :=
  !b.redeemers.isEmpty || !b.mintRedeemers.isEmpty ||
    !b.stakeRedeemers.isEmpty || !b.datums.isEmpty

/-- The script-data-hash step of Go `buildBody`: when the guard holds,
hand the protocol parameters' entire `CostModels` map to
`ComputeScriptDataHash`; the result records which language-view
versions enter the hashed bytes (`none` when no hash is computed). -/
def buildBodyScriptDataVersions (b : BuilderScripts)
    (costModels : List (String × List Int)) : Except String (Option (List Nat)) :=
  if hasScriptData b then
    match scriptDataHashVersions costModels with
    | .error e => .error e
    | .ok vs => .ok (some vs)
  else .ok none

/-- Modelled from the spec: the cost-model versions "actually exercised
by the transaction's attached or referenced scripts" -- the versions of
the Plutus scripts the builder carries (the counterexample builder has
no reference scripts). -/
def exercisedVersions (b : BuilderScripts) : List Nat :=
  (if b.v1scripts.isEmpty then [] else [0]) ++
    (if b.v2scripts.isEmpty then [] else [1]) ++
    (if b.v3scripts.isEmpty then [] else [2])

/-- The C1 counterexample builder: a single PlutusV2 script with one
spend redeemer, nothing else. -/
def c1builder : BuilderScripts :=
  { v1scripts := [], v2scripts := [[7]], v3scripts := [], nativescripts := [],
    redeemers := [(1, 0)], mintRedeemers := [], stakeRedeemers := [], datums := [] }

/-- C1 counterexample: with protocol parameters carrying both PlutusV1
and PlutusV2 cost models but only a PlutusV2 script attached, the
encoding hashed by `buildBody` includes version 0 (PlutusV1), a
cost-model version present in the protocol parameters but exercised by
no attached or referenced script -- the claim says it must be excluded. -/
theorem c1_cost_model_filter_counterexample :
    buildBodyScriptDataVersions c1builder
      [("PlutusV1", [0]), ("PlutusV2", [0])] = .ok (some [0, 1]) ∧
    (0 : Nat) ∈ [0, 1] ∧
    exercisedVersions c1builder = [1] ∧
    (0 : Nat) ∉ exercisedVersions c1builder := by
  refine ⟨by decide, by decide, by decide, by decide⟩

/-- C1 (amended): whenever a script-data hash is computed, the
language-view versions entering the hashed encoding are exactly the
versions of every entry of the protocol parameters' cost-model map,
regardless of which scripts the builder carries: the builder's script
fields do not influence the set at all. -/
theorem c1_cost_models_unfiltered (b b2 : BuilderScripts)
    (costModels : List (String × List Int))
    (hb : hasScriptData b = true) (hb2 : hasScriptData b2 = true) :
    buildBodyScriptDataVersions b costModels =
      buildBodyScriptDataVersions b2 costModels ∧
    (∀ vs, scriptDataHashVersions costModels = .ok vs →
      ∀ v, v ∈ vs ↔
        ∃ lang cms, (lang, cms) ∈ costModels ∧ costModelVersion lang = .ok v) := by
  constructor
  · unfold buildBodyScriptDataVersions
    rw [if_pos hb, if_pos hb2]
  · intro vs hvs v
    clear hb hb2
    induction costModels generalizing vs with
    | nil =>
      injection hvs with hvs
      subst hvs
      simp
    | cons e t ih =>
      obtain ⟨lang, cms⟩ := e
      show v ∈ vs ↔ _
      unfold scriptDataHashVersions at hvs
      cases hcv : costModelVersion lang with
      | error err =>
        rw [hcv] at hvs
        cases hvs
      | ok v0 =>
        rw [hcv] at hvs
        cases hrec : scriptDataHashVersions t with
        | error err =>
          rw [hrec] at hvs
          cases hvs
        | ok vs' =>
          rw [hrec] at hvs
          injection hvs with hvs
          subst hvs
          have hmem : v ∈ (if v0 ∈ vs' then vs' else v0 :: vs') ↔ v = v0 ∨ v ∈ vs' := by
            by_cases h0 : v0 ∈ vs'
            · rw [if_pos h0]
              constructor
              · exact Or.inr
              · rintro (rfl | h) <;> assumption
            · rw [if_neg h0]
              exact List.mem_cons
          rw [hmem, ih vs' hrec]
          constructor
          · rintro (rfl | ⟨lang2, cms2, hmem2, hcv2⟩)
            · exact ⟨lang, cms, List.mem_cons_self _ _, hcv⟩
            · exact ⟨lang2, cms2, List.mem_cons_of_mem _ hmem2, hcv2⟩
          · rintro ⟨lang2, cms2, hmem2, hcv2⟩
            rcases List.mem_cons.mp hmem2 with heq | hmem3
            · injection heq with he1 he2
              subst he1
              rw [hcv] at hcv2
              injection hcv2 with hcv2
              exact Or.inl hcv2.symm
            · exact Or.inr ⟨lang2, cms2, hmem3, hcv2⟩

/-- Witness for `c1_cost_models_unfiltered` at the counterexample
builder and a second builder with different scripts. -/
theorem c1_cost_models_unfiltered_witness :
    buildBodyScriptDataVersions c1builder [("PlutusV3", [1])] =
      buildBodyScriptDataVersions
        { c1builder with v1scripts := [[9]], v2scripts := [] } [("PlutusV3", [1])] ∧
    (∀ vs, scriptDataHashVersions [("PlutusV3", [1])] = .ok vs →
      ∀ v, v ∈ vs ↔
        ∃ lang cms, (lang, cms) ∈ [("PlutusV3", [(1 : Int)])] ∧
          costModelVersion lang = .ok v) :=
  c1_cost_models_unfiltered c1builder
    { c1builder with v1scripts := [[9]], v2scripts := [] }
    [("PlutusV3", [1])] (by decide) (by decide)

-- ## C2: Clone and shared backing arrays (apollo.go Clone:741-813)

/-- A mint/payment unit (Go `Unit`): hex policy id, hex asset name,
quantity. -/
structure UnitM where
  policyId : String
  name : String
  quantity : Int
deriving DecidableEq

/-- A Go slice or map header: a reference to a backing allocation
(`id`) plus its current contents.  Two headers alias iff they carry the
same `id`; mutation through one is visible through every header with
that `id`. -/
structure GoSlice (α : Type) where
  id : Nat
  data : List α
deriving DecidableEq

/-- A `Payment` cell as `Clone` copies it (`cp := *pp`): scalar fields
by value, and the `Units` slice header -- hence the backing-array
reference -- verbatim. -/
structure PaymentM where
  lovelace : Int
  unitsId : Nat
deriving DecidableEq

/-- The heap of unit backing arrays, keyed by allocation id. -/
abbrev UnitHeap := List (Nat × List UnitM)

def heapGet : UnitHeap → Nat → List UnitM
  | [], _ => []
  | e :: t, i => if e.1 = i then e.2 else heapGet t i

/-- Write a unit array through a backing reference: every header
holding this id observes the new contents. -/
def heapSet : UnitHeap → Nat → List UnitM → UnitHeap
  | [], _, _ => []
  | e :: t, i, v => if e.1 = i then (i, v) :: t else e :: heapSet t i v

/-- What a payment's `Units` slice reads through its backing reference. -/
def paymentUnits (h : UnitHeap) (p : PaymentM) : List UnitM :=
  heapGet h p.unitsId

/-- The mutable containers of the builder that Go `Clone`
(apollo.go:741-813) copies. -/
structure BuilderClone where
  payments : GoSlice PaymentM
  utxos : GoSlice Nat
  preselectedUtxos : GoSlice Nat
  datums : GoSlice Nat
  redeemers : GoSlice (String × Nat)
  stakeRedeemers : GoSlice (String × Nat)
  mintRedeemers : GoSlice (String × Nat)
  withdrawals : GoSlice (String × Nat)
  mint : GoSlice UnitM
  usedUtxos : GoSlice String
  metadata : Option (GoSlice (Nat × Nat))
deriving DecidableEq

/-- Go `Clone`: every top-level container is rebuilt in a fresh backing
allocation (`append` into a nil slice, `maps.Copy` into a fresh map, a
fresh metadata map), with fresh ids drawn from `fresh` upwards; each
`*Payment` element is copied as a struct (`cp := *pp`), so its `Units`
backing reference (`unitsId`) is reused unchanged inside the fresh
payments container. -/
def Clone (a : BuilderClone) (fresh : Nat) : BuilderClone :=
  { payments := { id := fresh, data := a.payments.data },
    utxos := { id := fresh + 1, data := a.utxos.data },
    preselectedUtxos := { id := fresh + 2, data := a.preselectedUtxos.data },
    datums := { id := fresh + 3, data := a.datums.data },
    redeemers := { id := fresh + 4, data := a.redeemers.data },
    stakeRedeemers := { id := fresh + 5, data := a.stakeRedeemers.data },
    mintRedeemers := { id := fresh + 6, data := a.mintRedeemers.data },
    withdrawals := { id := fresh + 7, data := a.withdrawals.data },
    mint := { id := fresh + 8, data := a.mint.data },
    usedUtxos := { id := fresh + 9, data := a.usedUtxos.data },
    metadata := a.metadata.map (fun m => { id := fresh + 10, data := m.data }) }

/-- The C2 failing builder: one payment holding one unit, whose backing
array lives at heap id 100. -/
def c2builder : BuilderClone :=
  { payments := { id := 0, data := [{ lovelace := 2000000, unitsId := 100 }] },
    utxos := { id := 1, data := [] },
    preselectedUtxos := { id := 2, data := [] },
    datums := { id := 3, data := [] },
    redeemers := { id := 4, data := [] },
    stakeRedeemers := { id := 5, data := [] },
    mintRedeemers := { id := 6, data := [] },
    withdrawals := { id := 7, data := [] },
    mint := { id := 8, data := [] },
    usedUtxos := { id := 9, data := [] },
    metadata := none }

/-- The heap for `c2builder`: unit array id 100 holds one unit of
quantity 5. -/
def c2heap : UnitHeap :=
  [(100, [{ policyId := "aa", name := "746f6b656e", quantity := 5 }])]

/-- C2 (code evaluated at the failing input): `Clone` gives the cloned
payments container a fresh backing id, but the cloned payment keeps the
original's `Units` backing reference (id 100); writing quantity 999
through the clone's reference changes the unit list the ORIGINAL
builder's payment reads.  The per-payment unit lists of clone and
original are therefore not independent copies, contradicting the
documented deep copy. -/
theorem c2_clone_shares_payment_units :
    (Clone c2builder 1000).payments.id ≠ c2builder.payments.id ∧
    (Clone c2builder 1000).payments.data.map (fun p => p.unitsId) =
      c2builder.payments.data.map (fun p => p.unitsId) ∧
    (∀ p ∈ c2builder.payments.data,
      paymentUnits
        (heapSet c2heap 100 [{ policyId := "aa", name := "746f6b656e", quantity := 999 }])
        p ≠ paymentUnits c2heap p) := by
  refine ⟨by decide, by decide, by decide⟩

-- ## C8: min-UTxO formula (part_014 MinLovelacePostAlonzo / OutputCborSize)

/-- CBOR head size (initial byte plus argument extension) for an
unsigned argument. -/
def cborUintHeadSize (n : Nat) : Nat :=
  if n < 24 then 1 else if n < 256 then 2 else if n < 65536 then 3
  else if n < 4294967296 then 5 else 9

/-- CBOR size of an integer: unsigned for nonnegative, negative-int
head for negative (argument `-1 - q`).  Cardano asset quantities fit in
64 bits, so the bignum encoding is out of modelled range. -/
def cborIntSize (q : Int) : Nat :=
  if 0 ≤ q then cborUintHeadSize q.toNat else cborUintHeadSize (-1 - q).toNat

/-- CBOR size of a definite-length byte string of `n` bytes. -/
def cborBytesSize (n : Nat) : Nat := cborUintHeadSize n + n

/-- First-occurrence dedup of a list of policy ids (to regroup the
flattened multi-asset entries per policy). -/
def natDedup (seen : List Nat) : List Nat → List Nat
  | [] => []
  | p :: t => if p ∈ seen then natDedup seen t else p :: natDedup (p :: seen) t

/-- Modelled from the spec: canonical CBOR size of the multi-asset map
of an output value (map policy -> map asset-name -> quantity; policy
ids are 28-byte strings). -/
def maCborSize (m : MultiAsset) : Nat :=
  let policies := natDedup [] (m.map (fun e => e.1.1))
  cborUintHeadSize policies.length +
    (policies.map (fun p =>
      let entries := m.filter (fun e => e.1.1 = p)
      cborBytesSize 28 + cborUintHeadSize entries.length +
        (entries.map (fun e => cborBytesSize e.1.2.length + cborIntSize e.2)).sum)).sum

/-- Modelled from the spec: canonical CBOR size of a
`MaryTransactionOutputValue` -- a plain unsigned coin when there are no
assets, else the two-element array `[coin, multiasset]`. -/
def valueCborSize (v : Value) : Nat :=
  match v.assets with
  | none => cborUintHeadSize v.coin
  | some m => 1 + cborUintHeadSize v.coin + maCborSize m

/-- A Babbage transaction output as the min-UTxO computation sees it:
raw address bytes, a value, and optional pre-encoded datum-option /
script-ref fields. -/
structure TxOutput where
  addr : List Nat
  value : Value
  datumRaw : Option (List Nat)
  scriptRefRaw : Option (List Nat)
deriving DecidableEq

/-- Modelled from the spec: canonical CBOR size of a Babbage output
(the Go `OutputCborSize` delegates the encoding to the external
gouroboros encoder): a map with keys 0 (address), 1 (value) and
optionally 2 (datum option) and 3 (script ref). -/
def OutputCborSize (o : TxOutput) : Nat :=
  let n := 2 + (if o.datumRaw.isSome then 1 else 0) +
    (if o.scriptRefRaw.isSome then 1 else 0)
  cborUintHeadSize n +
    1 + cborBytesSize o.addr.length +
    1 + valueCborSize o.value +
    (match o.datumRaw with | none => 0 | some d => 1 + d.length) +
    (match o.scriptRefRaw with | none => 0 | some s => 1 + s.length)

/-- Go `MinLovelacePostAlonzo`:
`coinsPerUtxoByte * int64(outputSize + 160)` in `int64` arithmetic. -/
def MinLovelacePostAlonzo (o : TxOutput) (coinsPerUtxoByte : Int) : Int :=
  toInt64 (coinsPerUtxoByte * ((OutputCborSize o : Int) + 160))

/-- The C8 counterexample output: a 29-byte (enterprise) address and no
coin, assets, datum or script ref; its encoded size is 35 bytes. -/
def c8out : TxOutput :=
  { addr := List.replicate 29 0, value := { coin := 0, assets := none },
    datumRaw := none, scriptRefRaw := none }

/-- C8 counterexample: at `coinsPerUtxoByte = 2^62` the Go `int64`
product `c * (35 + 160)` wraps to `-2^62`, so the computed minimum
lovelace does not equal `c * (size + 160)`. -/
theorem c8_min_lovelace_counterexample :
    OutputCborSize c8out = 35 ∧
    MinLovelacePostAlonzo c8out 4611686018427387904 = -4611686018427387904 ∧
    MinLovelacePostAlonzo c8out 4611686018427387904 ≠
      4611686018427387904 * ((OutputCborSize c8out : Int) + 160) := by
  refine ⟨by decide, by decide, by decide⟩

/-- C8 (amended): whenever the product fits in `int64` -- in particular
for every realistic protocol parameter -- the computed minimum lovelace
equals `coinsPerUtxoByte * (encoded size + 160)` exactly. -/
theorem c8_min_lovelace_formula (o : TxOutput) (c : Int)
    (h1 : -(I63 : Int) ≤ c * ((OutputCborSize o : Int) + 160))
    (h2 : c * ((OutputCborSize o : Int) + 160) < (I63 : Int)) :
    MinLovelacePostAlonzo o c = c * ((OutputCborSize o : Int) + 160) := by
  unfold MinLovelacePostAlonzo
  exact toInt64_eq_self _ h1 h2

/-- Witness for `c8_min_lovelace_formula` at the mainnet parameter
`coinsPerUtxoByte = 4310`. -/
theorem c8_min_lovelace_formula_witness :
    MinLovelacePostAlonzo c8out 4310 = 4310 * ((OutputCborSize c8out : Int) + 160) :=
  c8_min_lovelace_formula c8out 4310 (by decide) (by decide)

-- ## C6: change output creation in the fee/change loop
-- (apollo.go Complete:1000-1083)

/-- `NewBabbageOutput(changeAddr, changeValue, nil, nil)`: the change
output the loop builds. -/
def mkChangeOutput (changeAddr : List Nat) (v : Value) : TxOutput :=
  { addr := changeAddr, value := v, datumRaw := none, scriptRefRaw := none }

/-- The `totalOutputCoin` accumulation loop of the asset-change balance
check: `uint64` additions of the output coins, wrapping. -/
def sumOutputCoins (outputs : List TxOutput) : Nat :=
  outputs.foldl (fun acc o => (acc + o.value.coin) % U64) 0

/-- The change computed at the top of each loop iteration:
`totalInput - (totalRequired + fee)` via the checked Value operations. -/
def changeValueOf (totalRequired totalInput : Value) (fee : Nat) : Except String Value :=
  match totalRequired.add (NewSimpleValue fee) with
  | .error _ => .error "required value overflow"
  | .ok totalNeeded =>
    match totalInput.sub totalNeeded with
    | .error _ => .error "insufficient funds"
    | .ok changeValue => .ok changeValue

/-- One iteration body of the fee/change convergence loop of Go
`Complete` (apollo.go:1000-1063): compute the change; if it has coin or
assets, build the tentative change output and compare its coin
(`int64(changeValue.Coin)`) against its own min-UTxO; append it when at
or above; otherwise, when it carries assets, raise the coin to the
threshold, re-encode (the threshold may grow once more), and append
only if the balance check against the total input passes -- else fail;
otherwise (ADA-only below threshold) create no change output, absorbing
the shortfall as fee. -/
def changeIteration (baseOutputs : List TxOutput) (totalRequired totalInput : Value)
    (fee : Nat) (changeAddr : List Nat) (coinsPerUtxoByte : Int) (depositAdj : Int) :
    Except String (List TxOutput) :=
  match changeValueOf totalRequired totalInput fee with
  | .error e => .error e
  | .ok changeValue =>
    if 0 < changeValue.coin ∨ changeValue.hasAssets then
      let changeOutput := mkChangeOutput changeAddr changeValue
      let minChange := MinLovelacePostAlonzo changeOutput coinsPerUtxoByte
      if minChange ≤ toInt64u changeValue.coin then
        .ok (baseOutputs ++ [changeOutput])
      else if changeValue.hasAssets then
        let cv1 : Value := { changeValue with coin := toUInt64i minChange }
        let out1 := mkChangeOutput changeAddr cv1
        let actualMin := MinLovelacePostAlonzo out1 coinsPerUtxoByte
        let cv2 : Value :=
          if minChange < actualMin then { cv1 with coin := toUInt64i actualMin } else cv1
        let out2 := mkChangeOutput changeAddr cv2
        let totalOutputCoin0 := (sumOutputCoins baseOutputs + cv2.coin + fee) % U64
        let totalOutputCoin :=
          if 0 < depositAdj then (totalOutputCoin0 + depositAdj.toNat) % U64
          else totalOutputCoin0
        if totalInput.coin < totalOutputCoin then
          .error "insufficient funds for change min UTxO"
        else .ok (baseOutputs ++ [out2])
      else .ok baseOutputs
    else .ok baseOutputs

/-- C6 counterexample: a change of 100 lovelace carrying one asset,
well below the min-UTxO of its own output (4310 lovelace per byte),
with the loop's inputs wired exactly as `Complete` wires them
(`totalInput = totalRequired + fee + change`).  The claim says the
assets force a change output; the code instead fails the iteration with
an insufficient-funds error, because the bumped change coin always
exceeds the remaining balance. -/
theorem c6_change_assets_counterexample :
    (Value.hasAssets { coin := 100, assets := some [((0, []), 1)] } = true) ∧
    (toInt64u 100 <
      MinLovelacePostAlonzo
        (mkChangeOutput (List.replicate 29 0) { coin := 100, assets := some [((0, []), 1)] })
        4310) ∧
    changeValueOf { coin := 0, assets := none }
      { coin := 100, assets := some [((0, []), 1)] } 0 =
      .ok { coin := 100, assets := some [((0, []), 1)] } ∧
    changeIteration [] { coin := 0, assets := none }
      { coin := 100, assets := some [((0, []), 1)] } 0
      (List.replicate 29 0) 4310 0 =
      .error "insufficient funds for change min UTxO" := by
  refine ⟨by decide, by decide, by decide, by decide⟩

theorem toUInt64i_of_nonneg (x : Int) (h1 : 0 ≤ x) (h2 : x < (U64 : Int)) :
    toUInt64i x = x.toNat := by
  unfold toUInt64i
  rw [Int.emod_eq_of_lt h1 h2]
  have hlt : x.toNat < U64 := by omega
  exact Nat.mod_eq_of_lt hlt

/-- Exact (unreduced) sum of output coins. -/
def sumCoinsPlain (outputs : List TxOutput) : Nat :=
  (outputs.map (fun o => o.value.coin)).sum

theorem sumOutputCoins_foldl (outputs : List TxOutput) : ∀ (acc : Nat),
    acc + sumCoinsPlain outputs < U64 →
    outputs.foldl (fun acc o => (acc + o.value.coin) % U64) acc =
      acc + sumCoinsPlain outputs := by
  induction outputs with
  | nil =>
    intro acc _
    simp [sumCoinsPlain]
  | cons o t ih =>
    intro acc h
    have hplain : sumCoinsPlain (o :: t) = o.value.coin + sumCoinsPlain t := by
      simp [sumCoinsPlain]
    rw [hplain] at h
    show List.foldl _ ((acc + o.value.coin) % U64) t = _
    rw [Nat.mod_eq_of_lt (by omega), ih (acc + o.value.coin) (by omega), hplain]
    omega

theorem sumOutputCoins_eq_plain (outputs : List TxOutput)
    (h : sumCoinsPlain outputs < U64) :
    sumOutputCoins outputs = sumCoinsPlain outputs := by
  unfold sumOutputCoins
  rw [sumOutputCoins_foldl outputs 0 (by omega)]
  omega

theorem value_add_coin (v o w : Value) (h : Value.add v o = .ok w)
    (hnw : v.coin + o.coin < U64) : w.coin = v.coin + o.coin := by
  unfold Value.add at h
  rw [Nat.mod_eq_of_lt hnw, if_neg (by omega)] at h
  injection h with h
  rw [← h]

theorem value_sub_coin (v o w : Value) (h : Value.sub v o = .ok w) :
    o.coin ≤ v.coin ∧ w.coin = v.coin - o.coin := by
  unfold Value.sub at h
  by_cases hc : v.coin < o.coin
  · rw [if_pos hc] at h
    cases h
  · rw [if_neg hc] at h
    refine ⟨by omega, ?_⟩
    rcases hva : v.assets with _ | ma <;> rcases hoa : o.assets with _ | mb <;>
      simp only [hva, hoa] at h
    · injection h with h
      rw [← h]
    · by_cases hme : maIsEmpty mb = true
      · rw [if_neg (by simp [hme])] at h
        injection h with h
        rw [← h]
      · rw [if_pos (by simp [hme])] at h
        cases h
    · injection h with h
      rw [← h]
    · cases hsm : SubMultiAsset ma mb with
      | error e =>
        rw [hsm] at h
        cases h
      | ok m =>
        rw [hsm] at h
        injection h with h
        rw [← h]

/-- C6 (amended): with the iteration's inputs wired as `Complete` wires
them (`totalRequired` = base outputs plus positive deposit adjustment,
no `uint64`/`int64` overflow, a positive coins-per-byte parameter), a
successful iteration appends a change output exactly when the computed
change's lovelace is at or above the min-UTxO threshold of the
tentative change output -- in particular every appended change output
carries at least its own threshold, so no dust output is ever created.
When the change is below the threshold, no output is appended: without
assets the shortfall is absorbed as fee, and with assets the iteration
cannot succeed at all (the balance check always fails), contrary to
the claim that assets force a change output. -/
theorem c6_change_iteration_spec (baseOutputs : List TxOutput)
    (totalRequired totalInput : Value) (fee : Nat) (changeAddr : List Nat)
    (c : Int) (depositAdj : Int) (cv : Value)
    (hcv : changeValueOf totalRequired totalInput fee = .ok cv)
    (hti : totalInput.coin < I63)
    (hwire : totalRequired.coin =
      sumCoinsPlain baseOutputs + (if 0 < depositAdj then depositAdj.toNat else 0))
    (hsmall : sumCoinsPlain baseOutputs + depositAdj.toNat + fee < I63)
    (hcpos : 0 < c)
    (hmin1 : c * ((OutputCborSize (mkChangeOutput changeAddr cv) : Int) + 160) < I63)
    (hmin2 : c * ((OutputCborSize (mkChangeOutput changeAddr
        { cv with coin := (toUInt64i
          (MinLovelacePostAlonzo (mkChangeOutput changeAddr cv) c)) }) : Int) + 160) <
        I63)
    (outs : List TxOutput)
    (hok : changeIteration baseOutputs totalRequired totalInput fee changeAddr c
      depositAdj = .ok outs) :
    (outs = baseOutputs ++ [mkChangeOutput changeAddr cv] ↔
      ((0 < cv.coin ∨ cv.hasAssets = true) ∧
        MinLovelacePostAlonzo (mkChangeOutput changeAddr cv) c ≤ (cv.coin : Int))) ∧
    (∀ o ∈ outs.drop baseOutputs.length,
      MinLovelacePostAlonzo o c ≤ (o.value.coin : Int)) := by
  have hU : U64 = 18446744073709551616 := rfl
  have hI : I63 = 9223372036854775808 := rfl
  -- unpack the change computation
  unfold changeValueOf at hcv
  rcases hadd : totalRequired.add (NewSimpleValue fee) with e | tn <;>
    simp only [hadd] at hcv
  · cases hcv
  rcases hsub : totalInput.sub tn with e | cv' <;> simp only [hsub] at hcv
  · cases hcv
  injection hcv with hcv
  subst hcv
  have hdep : (if 0 < depositAdj then depositAdj.toNat else 0) ≤ depositAdj.toNat := by
    split <;> omega
  have htn : tn.coin = totalRequired.coin + fee := by
    refine value_add_coin totalRequired (NewSimpleValue fee) tn hadd ?_
    show totalRequired.coin + fee < U64
    omega
  obtain ⟨hle, hcvcoin⟩ := value_sub_coin totalInput tn cv' hsub
  have hcv63 : cv'.coin < I63 := by omega
  -- the tentative change output's threshold, exactly
  have hMeq : MinLovelacePostAlonzo (mkChangeOutput changeAddr cv') c =
      c * ((OutputCborSize (mkChangeOutput changeAddr cv') : Int) + 160) := by
    unfold MinLovelacePostAlonzo
    refine toInt64_eq_self _ ?_ hmin1
    have : (0 : Int) < c * ((OutputCborSize (mkChangeOutput changeAddr cv') : Int) + 160) :=
      mul_pos hcpos (by positivity)
    omega
  have hMpos : 0 < MinLovelacePostAlonzo (mkChangeOutput changeAddr cv') c := by
    rw [hMeq]
    exact mul_pos hcpos (by positivity)
  have hM63 : MinLovelacePostAlonzo (mkChangeOutput changeAddr cv') c < I63 := by
    rw [hMeq]; exact hmin1
  have htu : toInt64u cv'.coin = (cv'.coin : Int) := toInt64u_eq_self cv'.coin hcv63
  -- reduce the iteration at the computed change
  unfold changeIteration changeValueOf at hok
  simp only [hadd] at hok
  simp only [hsub] at hok
  by_cases hc1 : 0 < cv'.coin ∨ cv'.hasAssets = true
  · rw [if_pos hc1] at hok
    by_cases hc2 : MinLovelacePostAlonzo (mkChangeOutput changeAddr cv') c ≤
        toInt64u cv'.coin
    · rw [if_pos hc2] at hok
      injection hok with hok
      subst hok
      constructor
      · exact ⟨fun _ => ⟨hc1, htu ▸ hc2⟩, fun _ => rfl⟩
      · intro o ho
        rw [List.drop_left] at ho
        rw [List.mem_singleton] at ho
        subst ho
        show MinLovelacePostAlonzo (mkChangeOutput changeAddr cv') c ≤ (cv'.coin : Int)
        rw [← htu]
        exact hc2
    · rw [if_neg hc2] at hok
      by_cases hc3 : cv'.hasAssets = true
      · rw [if_pos hc3] at hok
        -- the bump branch: show the balance check always fails
        exfalso
        set M := MinLovelacePostAlonzo (mkChangeOutput changeAddr cv') c with hMdef
        have hMgt : (cv'.coin : Int) < M := by
          rw [← htu]
          omega
        have hcu1 : toUInt64i M = M.toNat :=
          toUInt64i_of_nonneg M (by omega) (by omega)
        set cv1 : Value := { cv' with coin := toUInt64i M } with hcv1
        set A := MinLovelacePostAlonzo (mkChangeOutput changeAddr cv1) c with hAdef
        have hAeq : A = c * ((OutputCborSize (mkChangeOutput changeAddr cv1) : Int) + 160) := by
          rw [hAdef]
          unfold MinLovelacePostAlonzo
          refine toInt64_eq_self _ ?_ hmin2
          have : (0 : Int) < c * ((OutputCborSize (mkChangeOutput changeAddr cv1) : Int) + 160) :=
            mul_pos hcpos (by positivity)
          omega
        have hApos : 0 < A := by
          rw [hAeq]
          exact mul_pos hcpos (by positivity)
        have hA63 : A < I63 := by
          rw [hAeq]
          exact hmin2
        have hcu2 : toUInt64i A = A.toNat :=
          toUInt64i_of_nonneg A (by omega) (by omega)
        set cv2 : Value := if M < A then { cv1 with coin := toUInt64i A } else cv1 with hcv2
        have hcv2coin : cv2.coin = if M < A then A.toNat else M.toNat := by
          rw [hcv2]
          split <;> simp [hcv1, hcu1, hcu2]
        have hcv2big : cv'.coin < cv2.coin ∧ cv2.coin < I63 := by
          rw [hcv2coin]
          split <;> omega
        have hplain : sumCoinsPlain baseOutputs < U64 := by omega
        have hsum : sumOutputCoins baseOutputs = sumCoinsPlain baseOutputs :=
          sumOutputCoins_eq_plain baseOutputs hplain
        have ht0 : (sumOutputCoins baseOutputs + cv2.coin + fee) % U64 =
            sumCoinsPlain baseOutputs + cv2.coin + fee := by
          rw [hsum]
          exact Nat.mod_eq_of_lt (by omega)
        rw [ht0] at hok
        have hbal : totalInput.coin <
            (if 0 < depositAdj then
              (sumCoinsPlain baseOutputs + cv2.coin + fee + depositAdj.toNat) % U64
            else sumCoinsPlain baseOutputs + cv2.coin + fee) := by
          split
          · rw [Nat.mod_eq_of_lt (by omega)]
            rename_i hdpos
            rw [if_pos hdpos] at hwire
            omega
          · rename_i hdneg
            rw [if_neg hdneg] at hwire
            omega
        rw [if_pos hbal] at hok
        cases hok
      · rw [if_neg hc3] at hok
        injection hok with hok
        subst hok
        constructor
        · constructor
          · intro hcontra
            have := congrArg List.length hcontra
            simp at this
          · rintro ⟨_, h2⟩
            rw [← htu] at h2
            exact absurd h2 hc2
        · intro o ho
          rw [List.drop_length] at ho
          cases ho
  · rw [if_neg hc1] at hok
    injection hok with hok
    subst hok
    constructor
    · constructor
      · intro hcontra
        have := congrArg List.length hcontra
        simp at this
      · rintro ⟨h1, _⟩
        exact absurd h1 hc1
    · intro o ho
      rw [List.drop_length] at ho
      cases ho

/-- Witness for `c6_change_iteration_spec`: an ADA-only change of
4,800,000 lovelace against a 29-byte change address at 4310
lovelace-per-byte is appended as a change output meeting its own
min-UTxO. -/
theorem c6_change_iteration_spec_witness :
    (([] : List TxOutput) ++ [mkChangeOutput (List.replicate 29 0)
        { coin := 4800000, assets := none }] =
      [] ++ [mkChangeOutput (List.replicate 29 0) { coin := 4800000, assets := none }] ↔
      ((0 < ({ coin := 4800000, assets := none } : Value).coin ∨
          Value.hasAssets { coin := 4800000, assets := none } = true) ∧
        MinLovelacePostAlonzo
          (mkChangeOutput (List.replicate 29 0) { coin := 4800000, assets := none }) 4310 ≤
          ((4800000 : Nat) : Int))) ∧
    (∀ o ∈ (([] : List TxOutput) ++
        [mkChangeOutput (List.replicate 29 0) { coin := 4800000, assets := none }]).drop
        ([] : List TxOutput).length,
      MinLovelacePostAlonzo o 4310 ≤ (o.value.coin : Int)) := by
  have h := c6_change_iteration_spec [] { coin := 0, assets := none }
    { coin := 4800000, assets := none } 0 (List.replicate 29 0) 4310 0
    { coin := 4800000, assets := none }
    (by decide) (by decide) (by decide) (by decide) (by decide) (by decide) (by decide)
    ([] ++ [mkChangeOutput (List.replicate 29 0) { coin := 4800000, assets := none }])
    (by decide)
  exact h
